import Mathlib

/-!
Formal model of the zomdb storage engine core.

This file gives a shallow embedding, in Lean 4, of the parts of the zomdb
repository that the specification talks about:

* the paged B+ tree (`btree/disk.go` sources): the in-page binary codec
  (`page.cells`, `page.setCells`, `node.Encode`, `node.Decode`), the tree
  operations (`BTree.Find`, `BTree.Insert`, `BTree.find`, `BTree.insert`,
  `BTree.split`, `BTree.splitRoot`, `BTree.splitNode`, `splitCells`,
  `addCell`), and the file-backed page store;
* the append-only heap log (`pkg/log`): `Log.Write`, `Log.Append`;
* the sequential-scan lookup (`pkg/table`): `Table.Get`, `Row.MarshalBinary`;
* the compactor (`pkg/sstable`): `compactEntries` and its sort/dedupe steps.

Go byte strings are modelled as `List Nat` (each entry a byte value), machine
integers as `Nat`/`Int` with explicit `% 2 ^ w` where overflow or truncation
matters, pages as their byte functions `Nat → Nat`, and fallible or
possibly-nonterminating code as `Except`-valued functions with explicit fuel.
-/

set_option autoImplicit false

set_option maxRecDepth 100000

deriving instance DecidableEq for Except

namespace Zomdb

/-- Byte strings: Go `string` / `[]byte` values, one `Nat` per byte. -/
abbrev Bytes := List Nat

/-- The error of an `Except` result, if any; used to state facts about
results whose success payload carries a page store (and so has no decidable
equality). -/
def errOf {ε α : Type _} : Except ε α → Option ε
  | .error e => some e
  | .ok _ => none

/-- Strict lexicographic byte order: `strings.Compare(a, b) < 0` resp.
`bytes.Compare(a, b) < 0` in the Go sources. -/
def bytesLt : Bytes → Bytes → Bool
  | [], [] => false
  | [], _ :: _ => true
  | _ :: _, [] => false
  | a :: as, b :: bs => if a < b then true else if b < a then false else bytesLt as bs

/-- Byte `i` of the `numBytes`-wide big-endian encoding of `v`
(after truncation to `numBytes` bytes), as written by Go
`binary.BigEndian.PutUintN`. -/
def beByte (numBytes v i : Nat) : Nat :=
  v % 2 ^ (8 * numBytes) / 2 ^ (8 * (numBytes - 1 - i)) % 2 ^ 8

/-- The `numBytes`-wide big-endian byte list of `v`, as produced by Go
`binary.BigEndian.PutUintN` into a fresh slice. -/
def beList (numBytes v : Nat) : Bytes :=
  (List.range numBytes).map (beByte numBytes v)

/-- Big-endian read of `numBytes` bytes of a list starting at `off`
(Go `binary.BigEndian.UintN(l[off:off+numBytes])`); absent indices read 0. -/
def readBEList (l : Bytes) (off numBytes : Nat) : Nat :=
  (List.range numBytes).foldl (fun acc i => acc * 2 ^ 8 + l.getD (off + i) 0) 0

/-- Go reinterpretation of a `uint64` value as an `int64`. -/
def toI64 (n : Nat) : Int :=
  if n < 2 ^ 63 then (n : Int) else (n : Int) - 2 ^ 64

/-- Go truncation of an `int64` value to a `uint64`. -/
def toU64 (i : Int) : Nat :=
  (i % (2 ^ 64 : Int)).toNat

/-! ## Pages (`btree/disk.go`)

`const pageSize = 4096`, `pageHeaderSize = 16`, `bTreeHeaderSize = pageSize`,
`rootNodeID = bTreeHeaderSize / pageSize`. -/

def pageSize : Nat := 4096

def pageHeaderSize : Nat := 16

def bTreeHeaderSize : Nat := pageSize

/-- The root node identifier, `bTreeHeaderSize / pageSize = 1`. -/
def rootNodeID : Int := (bTreeHeaderSize : Int) / (pageSize : Int)

/-- A page is a fixed 4096-byte block, `type page [pageSize]byte`; we model it
by its byte function (index ↦ byte value). Go would panic on an out-of-range
write; every input considered in this file stays within the page, and the
decoder checks bounds explicitly before each read, as the source does. -/
def Page : Type := Nat → Nat

/-- The zero page (`var p page`). -/
def Page.zero : Page := fun _ => 0

/-- Big-endian write of `v` into bytes `[off, off+numBytes)` of a page
(Go `binary.BigEndian.PutUintN(p[off:off+numBytes], v)`); a later write
shadows an earlier one on overlapping ranges. -/
def Page.putBE (p : Page) (off numBytes v : Nat) : Page :=
  fun j => if off ≤ j ∧ j < off + numBytes then beByte numBytes v (j - off) else p j

/-- Write the byte string `s` at offset `off` (Go `copy(p[off:off+len(s)], s)`). -/
def Page.copyBytes (p : Page) (off : Nat) (s : Bytes) : Page :=
  fun j => if off ≤ j ∧ j < off + s.length then s.getD (j - off) 0 else p j

/-- Big-endian read of `numBytes` bytes at `off`
(Go `binary.BigEndian.UintN(p[off:off+numBytes])`). -/
def Page.readBE (p : Page) (off numBytes : Nat) : Nat :=
  (List.range numBytes).foldl (fun acc i => acc * 2 ^ 8 + p (off + i)) 0

/-- Read the byte string `p[off:off+len]`. -/
def Page.slice (p : Page) (off len : Nat) : Bytes :=
  (List.range len).map (fun i => p (off + i))

/-- Go `func (p *page) parent() pagePtr`: the parent page pointer in header
bytes 0–7, reinterpreted as an `int64`. -/
def Page.parentPtr (p : Page) : Int := toI64 (p.readBE 0 8)

/-- Go `func (p *page) setParent(parent pagePtr)`. -/
def Page.setParent (p : Page) (parent : Int) : Page := p.putBE 0 8 (toU64 parent)

/-- Go `func (p *page) used() uint16`: header bytes 8–9. -/
def Page.usedVal (p : Page) : Nat := p.readBE 8 2

/-- Go `func (p *page) setUsed(used uint16)`. -/
def Page.setUsed (p : Page) (used : Nat) : Page := p.putBE 8 2 used

/-- Go `func (p *page) isInternal() bool`: header bytes 10–11, nonzero means
internal. -/
def Page.isInternalFlag (p : Page) : Bool := p.readBE 10 2 != 0

/-- Go `func (p *page) setInternal(val bool)`. -/
def Page.setInternalFlag (p : Page) (val : Bool) : Page :=
  p.putBE 10 2 (if val then 1 else 0)

/-- Go `func (p *page) numCells()`: header bytes 12–13 (read inline by
`p.cells()`). -/
def Page.numCells (p : Page) : Nat := p.readBE 12 2

/-! ## Cells and nodes -/

/-- Go `type cell struct { key, value string; ptr pagePtr }`. -/
structure Cell where
  key : Bytes := []
  value : Bytes := []
  ptr : Int := 0
  deriving DecidableEq, Inhabited

/-- Go `func (c cell) isPtr() bool { return c.ptr != 0 }`. -/
def Cell.isPtr (c : Cell) : Bool := c.ptr != 0

/-- Go `func (c cell) isData() bool { return !c.isPtr() }`. -/
def Cell.isData (c : Cell) : Bool := !c.isPtr

/-- Go `func (c cell) size() uint16`: `8 + uint16(len(key)) + uint16(len(value))`
when the value is nonempty, `8 + uint16(len(key))` otherwise, with `uint16`
truncation and wraparound. -/
def Cell.size (c : Cell) : Nat :=
  if c.value ≠ [] then
    (8 + c.key.length % 2 ^ 16 + c.value.length % 2 ^ 16) % 2 ^ 16
  else
    (8 + c.key.length % 2 ^ 16) % 2 ^ 16

/-- Go `type node struct { id, parent nodeID; isInternal bool; used uint16;
cells []cell }`. The zero value has `id = 0`, `parent = 0`,
`isInternal = false`, `used = 0`, `cells = nil`. -/
structure Node where
  id : Int := 0
  parent : Int := 0
  isInternal : Bool := false
  used : Nat := 0
  cells : List Cell := []
  deriving DecidableEq

/-- Go `func (n *node) isRoot() bool { return n.id == rootNodeID }`. -/
def Node.isRoot (n : Node) : Bool := n.id == rootNodeID

/-- Go `func (n *node) free() int`: `pageSize - pageHeaderSize - int(n.used)`,
an `int`, so possibly negative. -/
def Node.free (n : Node) : Int := (pageSize : Int) - (pageHeaderSize : Int) - (n.used : Int)

/-! ## Page codec (`page.cells`, `page.setCells`, `node.Encode`, `node.Decode`) -/

/-- The cell-decoding loop of Go `func (p *page) cells() ([]cell, error)`:
`count` cells remain to be read starting at `offset`. Each declared length is
bounds-checked against `pageSize` before the corresponding read; on an
internal page a cell carries an 8-byte child pointer, on a leaf page a
4-byte value length and the value bytes. All failure messages are collapsed
into the single error value `()`. -/
def cellsFrom (p : Page) (internal : Bool) : Nat → Nat → Except Unit (List Cell)
  | 0, _ => .ok []
  | count + 1, offset =>
    if offset + 4 > pageSize then .error ()
    else
      let keySize := p.readBE offset 4
      if offset + 4 + keySize > pageSize then .error ()
      else
        let key := p.slice (offset + 4) keySize
        let offset := offset + 4 + keySize
        if internal then
          if offset + 8 > pageSize then .error ()
          else
            let ptr := toI64 (p.readBE offset 8)
            (cellsFrom p internal count (offset + 8)).map
              (fun cs => { key := key, value := [], ptr := ptr } :: cs)
        else
          if offset + 4 > pageSize then .error ()
          else
            let valueSize := p.readBE offset 4
            if offset + 4 + valueSize > pageSize then .error ()
            else
              let value := p.slice (offset + 4) valueSize
              (cellsFrom p internal count (offset + 4 + valueSize)).map
                (fun cs => { key := key, value := value, ptr := 0 } :: cs)

/-- Go `func (p *page) cells() ([]cell, error)`: read the declared cell count
from header bytes 12–13 and decode that many cells starting at offset 16,
using the page's internal flag for the per-cell layout. -/
def Page.cells (p : Page) : Except Unit (List Cell) :=
  cellsFrom p p.isInternalFlag p.numCells pageHeaderSize

/-- The cell-encoding loop of Go `func (p *page) setCells(cells []cell)`:
write each cell at `offset`, then advance `offset` by `c.size()`. A cell with
a nonempty value is written as `⟨u32 keylen, key, u32 vallen, value⟩`; a cell
with an empty value is written as `⟨u32 keylen, key, u64 ptr⟩`. Note that the
source advances by `c.size() = 8 + len(key)` for pointer cells although it
wrote `12 + len(key)` bytes, so consecutive pointer cells overlap exactly as
in the source. -/
def setCellsFrom : List Cell → Nat → Page → Page
  | [], _, p => p
  | c :: cs, offset, p =>
    let p1 := (p.putBE offset 4 c.key.length).copyBytes (offset + 4) c.key
    let p2 :=
      if c.value ≠ [] then
        (p1.putBE (offset + 4 + c.key.length) 4 c.value.length).copyBytes
          (offset + 8 + c.key.length) c.value
      else
        p1.putBE (offset + 4 + c.key.length) 8 (toU64 c.ptr)
    setCellsFrom cs (offset + c.size) p2

/-- Go `func (p *page) setCells(cells []cell)`: write the cell count into
header bytes 12–13, then the packed cells starting at offset 16. -/
def Page.setCells (p : Page) (cells : List Cell) : Page :=
  setCellsFrom cells pageHeaderSize (p.putBE 12 2 cells.length)

/-- Go `func (n *node) Encode() (page, error)`: start from the zero page, set
the parent pointer (`n.parent.toPagePtr() = parent * pageSize`), the used
counter, the internal flag when `n.isInternal`, and the cells. The source
never returns a non-nil error, so the page is returned directly. -/
def Node.encode (n : Node) : Page :=
  let p := Page.zero.setParent (n.parent * (pageSize : Int))
  let p := p.setUsed n.used
  let p := if n.isInternal then p.setInternalFlag true else p
  p.setCells n.cells

/-- Go `func toNodeID(ptr pagePtr) (nodeID, error)`: fail unless `ptr` is a
multiple of `pageSize`, then divide. -/
def toNodeID (ptr : Int) : Except Unit Int :=
  if ptr % (pageSize : Int) != 0 then .error () else .ok (ptr / (pageSize : Int))

/-- Go `func (n *node) Decode(p page) error`, as invoked on a fresh receiver
(`var n node`, the only way the source calls it): the parent identifier, used
counter and cells are read from the page; the receiver's zero-valued `id` and
`isInternal` fields are left untouched, exactly as in the source (`Decode`
assigns neither field). -/
def Node.decode (p : Page) : Except Unit Node := do
  let parentID ← toNodeID p.parentPtr
  let cs ← p.cells
  .ok { id := 0, parent := parentID, isInternal := false, used := p.usedVal, cells := cs }

/-! ## The file-backed page store

Go `type pageStructure interface` with its `file` implementation over
`os.File`. `NewBTree` writes `bTreeHeaderSize + pageSize` zero bytes, so the
fresh file holds the zeroed header page and the zeroed root page.
`file.load` does `ReadAt` of exactly one page and fails on a short read, so a
load succeeds exactly when the whole page lies within the current file size;
`file.store` does `WriteAt`, which extends the file (zero-filled holes
included) and in this model always succeeds. -/

structure FileStore where
  content : Int → Page
  size : Int

/-- Go `func (f file) load(ptr pagePtr) (page, error)`. -/
def FileStore.load (s : FileStore) (ptr : Int) : Except Unit Page :=
  if 0 ≤ ptr ∧ ptr + (pageSize : Int) ≤ s.size then .ok (s.content ptr) else .error ()

/-- Go `func (f file) store(ptr pagePtr, p page) error`. -/
def FileStore.store (s : FileStore) (ptr : Int) (p : Page) : FileStore :=
  { content := fun q => if q = ptr then p else s.content q,
    size := max s.size (ptr + (pageSize : Int)) }

/-- The state of the page file right after Go `NewBTree`: all-zero content of
two pages (header page and root page). -/
def newBTreeStore : FileStore :=
  { content := fun _ => Page.zero, size := 2 * (pageSize : Int) }

/-- Go `NewBTree` runs `bt.waterMarkID.Store(bTreeHeaderSize)`, so the fresh
high-water mark is 4096 (not a page count). -/
def newBTreeWaterMark : Int := (bTreeHeaderSize : Int)

/-- Error values crossing the B+ tree API. `notFound` is Go `ErrNotFound`
(recognised by `errors.Is`); `generic` covers every other error value;
`panicked` models a Go `panic` (including an out-of-range slice index);
`fuel` is exhaustion of the model's recursion fuel, not a Go behaviour. -/
inductive BErr where
  | notFound
  | generic
  | panicked
  | fuel
  deriving DecidableEq

namespace BTree

/-- Go `func (bt *BTree) loadNode(id nodeID) (*node, error)`: load the page at
`id.toPagePtr() = id * pageSize` and decode it. The freshly allocated
receiver of `Decode` keeps `id = 0` and `isInternal = false` — the source
sets neither field. -/
def loadNode (st : FileStore) (id : Int) : Except BErr Node :=
  match st.load (id * (pageSize : Int)) with
  | .error _ => .error .generic
  | .ok p =>
    match Node.decode p with
    | .error _ => .error .generic
    | .ok n => .ok n

/-- One step of Go `func (bt *BTree) storeNodes(ns ...*node) error`: encode the
node and store it at `n.id.toPagePtr()`. -/
def storeNode (st : FileStore) (n : Node) : FileStore :=
  st.store (n.id * (pageSize : Int)) n.encode

/-- Go `func (bt *BTree) storeNodes(ns ...*node) error`. -/
def storeNodes (st : FileStore) (ns : List Node) : FileStore :=
  ns.foldl storeNode st

/-- Result of Go `func (bt *BTree) find(n *node, key string)
(string, *node, error)`: a found value with its node, a `NotFound` with the
leaf that should contain the key, or another error. -/
inductive FindRes where
  | found (value : Bytes) (n : Node)
  | notFound (n : Node)
  | fail (e : BErr)
  deriving DecidableEq

/-- The descent pointer computed by the internal-node branch of `BTree.find`:
start from the last cell's pointer and overwrite it with `c.ptr` for every
cell in order whose key is strictly greater than the search key. -/
def findChildPtr (cells : List Cell) (last : Int) (key : Bytes) : Int :=
  cells.foldl (fun acc c => if bytesLt key c.key then c.ptr else acc) last

/-- Go `func (bt *BTree) find(n *node, key string) (string, *node, error)`,
with explicit recursion fuel (the source recurses through child pages and has
no termination measure of its own). On a leaf the cells are scanned in order
for the first exact key match; a miss returns the leaf with `ErrNotFound`.
On an internal node the child at `findChildPtr` is loaded and searched;
`n.cells[len(n.cells)-1]` on an empty cell list is a Go panic. -/
def find (fuel : Nat) (st : FileStore) (n : Node) (key : Bytes) : FindRes :=
  match fuel with
  | 0 => .fail .fuel
  | fuel + 1 =>
    if !n.isInternal then
      match n.cells.find? (fun c => c.key == key) with
      | some c => .found c.value n
      | none => .notFound n
    else
      match n.cells.getLast? with
      | none => .fail .panicked
      | some last =>
        match toNodeID (findChildPtr n.cells last.ptr key) with
        | .error _ => .fail .generic
        | .ok childID =>
          match loadNode st childID with
          | .error e => .fail e
          | .ok child => find fuel st child key

/-- The positional step of Go cell insertion: scan the cells in order and
insert the new cell immediately before the first cell whose key is strictly
greater; `none` when no cell key is strictly greater. This captures
`append(cells[:i+1], cells[i:]...)` followed by `result[i] = insert` in both
`BTree.insert` and `addCell`. -/
def insertBeforeGreater (c : Cell) : List Cell → Option (List Cell)
  | [] => none
  | d :: ds =>
    if bytesLt c.key d.key then some (c :: d :: ds)
    else (insertBeforeGreater c ds).map (fun l => d :: l)

/-- Go `func addCell(cells []cell, insert cell) []cell`: positional insert
when some key is strictly greater; otherwise a data cell is appended at the
tail, while a pointer cell overwrites the last cell's key and appends a new
trailing pointer-only cell. (`cells[len(cells)-1].key = insert.key` panics in
Go on an empty list; every caller passes a nonempty list.) -/
def addCell (cells : List Cell) (insert : Cell) : List Cell :=
  match insertBeforeGreater insert cells with
  | some l => l
  | none =>
    if insert.isPtr then
      (cells.dropLast ++
        (match cells.getLast? with
         | some last => [{ last with key := insert.key }]
         | none => [])) ++ [{ key := [], value := [], ptr := insert.ptr }]
    else cells ++ [insert]

/-- Go `func used(cells []cell) uint16`: the `uint16` sum of the cell sizes. -/
def usedSum (cells : List Cell) : Nat :=
  cells.foldl (fun sum c => (sum + c.size) % 2 ^ 16) 0

/-- Go `func splitCells(cells []cell, insert cell) (left, right []cell)`. -/
def splitCells (cells : List Cell) (insert : Cell) : List Cell × List Cell :=
  let added := addCell cells insert
  let half := (added.length - 1) / 2
  (added.take (half + 1), added.drop (half + 1))

/-- Go `func (bt *BTree) splitNode(n *node, insert cell) (left, right *node)`;
`bt.addPage()` is the atomic increment of the high-water mark, passed in and
returned explicitly as `wm`. The left node keeps `n.id`; the right node gets
the freshly allocated identifier. -/
def splitNode (wm : Int) (n : Node) (insert : Cell) : Node × Node × Int :=
  let halves := splitCells n.cells insert
  let left : Node := { parent := n.parent, id := n.id, isInternal := n.isInternal,
                       cells := halves.1, used := usedSum halves.1 }
  let right : Node := { parent := n.parent, id := wm + 1, isInternal := n.isInternal,
                        cells := halves.2, used := usedSum halves.2 }
  (left, right, wm + 1)

/-- Go `func (bt *BTree) splitRoot(root *node, insert cell)
(left, right, newRoot *node)`: both halves get freshly allocated identifiers
(`bt.addPage()` twice); the new root reuses `root.id` and holds exactly two
cells, the first key of the right half paired with the left child pointer and
a pointer-only cell to the right child. Neither the halves nor the new root
have `isInternal` set by the source. `right.cells[0]` on an empty right half
is a Go panic; callers guard via the nonempty-cells check in `split`. -/
def splitRoot (wm : Int) (root : Node) (insert : Cell) : Node × Node × Node × Int :=
  let halves := splitCells root.cells insert
  let left : Node := { parent := root.id, id := wm + 1, cells := halves.1,
                       used := usedSum halves.1 }
  let right : Node := { parent := root.id, id := wm + 2, cells := halves.2,
                        used := usedSum halves.2 }
  let rightFirst := halves.2.headI
  let newRoot : Node :=
    { id := root.id,
      cells := [ { key := rightFirst.key, value := [], ptr := left.id * (pageSize : Int) },
                 { key := [], value := [], ptr := right.id * (pageSize : Int) } ],
      used := (rightFirst.key.length % 2 ^ 16 + 16) % 2 ^ 16 }
  (left, right, newRoot, wm + 2)

/-- The cell that `BTree.split` inserts into the parent after a non-root
split, from the source lines `rightPtr := cell{ key: right.cells[0].key,
ptr: right.id.toPagePtr() }`: the first key of the (untrimmed) right half,
paired with the pointer to the new right node. -/
def splitRightPtrCell (right : Node) : Cell :=
  { key := right.cells.headI.key, value := [], ptr := right.id * (pageSize : Int) }

mutual

/-- Go `func (bt *BTree) insert(n *node, insert cell) error`, with fuel for
the mutual recursion with `split`. Returns the node as left by the call (the
source mutates `n` in place on the no-split path and leaves it untouched on
the split path), together with the updated store and high-water mark. On the
split path the three returned nodes are stored (`bt.storeNodes(left, right,
parent)`). The tail insertion into an internal node overwrites the last
cell's key and appends a trailing pointer-only cell; on an empty cell list
the source would panic. -/
def insert : Nat → FileStore → Int → Node → Cell → Except BErr (Node × FileStore × Int)
  | 0, _, _, _, _ => .error .fuel
  | fuel + 1, st, wm, n, c =>
    if c.key = [] then .error .generic
    else if !n.isInternal && !n.isRoot && c.isPtr then .error .generic
    else if n.isInternal && c.isData then .error .generic
    else if n.free < (c.size : Int) then
      match split fuel st wm n c with
      | .error e => .error e
      | .ok (left, right, parent, st1, wm1) =>
        .ok (n, storeNodes st1 [left, right, parent], wm1)
    else
      let used1 := (n.used + c.size) % 2 ^ 16
      match insertBeforeGreater c n.cells with
      | some l => .ok ({ n with used := used1, cells := l }, st, wm)
      | none =>
        if c.isData then
          .ok ({ n with used := used1, cells := n.cells ++ [c] }, st, wm)
        else
          match n.cells.getLast? with
          | none => .error .panicked
          | some last =>
            let tailCells :=
              n.cells.dropLast ++ [{ last with key := c.key }, { key := [], value := [], ptr := c.ptr }]
            .ok ({ n with used := used1, cells := tailCells }, st, wm)

/-- Go `func (bt *BTree) split(n *node, insert cell) (left, right, parent
*node, err error)`, with fuel for the mutual recursion with `insert`.
An empty node is an error; a root node is handed to `splitRoot` (nothing
stored yet — the caller stores); otherwise the node is split, the separator
cell `splitRightPtrCell` is built from the untrimmed right half, an internal
right half drops its first cell, the parent is loaded from disk and the
separator cell is inserted into it. The source panics when a data cell meets
an internal node, a pointer cell meets a leaf, the last cell of an internal
node carries a key, or the loaded parent is a leaf. -/
def split : Nat → FileStore → Int → Node → Cell → Except BErr (Node × Node × Node × FileStore × Int)
  | 0, _, _, _, _ => .error .fuel
  | fuel + 1, st, wm, n, c =>
    if n.cells = [] then .error .generic
    else if n.isRoot then
      let lrn := splitRoot wm n c
      .ok (lrn.1, lrn.2.1, lrn.2.2.1, st, lrn.2.2.2)
    else if n.isInternal && c.isData then .error .panicked
    else if !n.isInternal && c.isPtr then .error .panicked
    else if n.isInternal && ((n.cells.getLastD default).key ≠ []) then .error .panicked
    else
      let lrw := splitNode wm n c
      let rightPtr := splitRightPtrCell lrw.2.1
      let right :=
        if n.isInternal then { lrw.2.1 with cells := lrw.2.1.cells.drop 1 } else lrw.2.1
      match loadNode st n.parent with
      | .error _ => .error .generic
      | .ok parent =>
        if !parent.isInternal && !n.isRoot then .error .panicked
        else
          match insert fuel st lrw.2.2 parent rightPtr with
          | .error e => .error e
          | .ok (parent1, st1, wm1) => .ok (lrw.1, right, parent1, st1, wm1)

end

/-- Go `func (bt *BTree) Insert(key, value string) error`: load the root,
`find` the target node (a `NotFound` flows on with the node, any other error
aborts), insert the new data cell, then store the local node variable `n`
again (even after a split, in which case the pre-split node is re-stored) and
sync. Returns the final store, high-water mark and the node last stored. -/
def insertTop (fuel : Nat) (st : FileStore) (wm : Int) (key value : Bytes) :
    Except BErr (FileStore × Int × Node) :=
  match loadNode st rootNodeID with
  | .error e => .error e
  | .ok root =>
    match find fuel st root key with
    | .fail e => .error e
    | .found _ n | .notFound n =>
      match insert fuel st wm n { key := key, value := value, ptr := 0 } with
      | .error e => .error e
      | .ok (n1, st1, wm1) => .ok (storeNode st1 n1, wm1, n1)

/-- Go `func (bt *BTree) Find(key string) (string, error)`: load the root and
run `find`; the node returned alongside a `NotFound` is dropped. -/
def findTop (fuel : Nat) (st : FileStore) (key : Bytes) : Except BErr Bytes :=
  match loadNode st rootNodeID with
  | .error e => .error e
  | .ok root =>
    match find fuel st root key with
    | .found v _ => .ok v
    | .notFound _ => .error .notFound
    | .fail e => .error e

end BTree

/-! ## The append-only heap log (`pkg/log`) -/

/-- Go `type segment struct { startOff int64; file afero.File }`; the file is
represented by its byte content. -/
structure Segment where
  startOff : Int
  data : Bytes
  deriving DecidableEq

/-- Go `type Log struct { size int64; segments []segment }` (the `afero.Fs`
handle and the mutex carry no modelled state). -/
structure HeapLog where
  size : Int
  segments : List Segment
  deriving DecidableEq

/-- Outcome of the underlying `file.Write` call on the head segment: how many
bytes the medium accepted and whether it reported an error. The medium is
external to the core, so the outcome is passed in explicitly; Go's
`io.Writer` contract makes a fully successful write return `(len(p), nil)`. -/
structure WriteOutcome where
  accepted : Nat
  failed : Bool

/-- Go `func (l *Log) Write(p []byte) (int, error)`: an empty segment list is
the `errNoNew` error; otherwise the head segment `l.segments[0]` receives the
accepted bytes. On a write error the function returns without incrementing
`l.size`; on success `l.size += int64(n)`. The boolean result is true when an
error is returned. -/
def logWrite (l : HeapLog) (p : Bytes) (res : WriteOutcome) : (Nat × Bool) × HeapLog :=
  match l.segments with
  | [] => ((0, true), l)
  | s :: rest =>
    let s1 := { s with data := s.data ++ p.take res.accepted }
    let l1 := { l with segments := s1 :: rest }
    if res.failed then ((res.accepted, true), l1)
    else ((res.accepted, false), { l1 with size := l.size + (res.accepted : Int) })

/-- Go `func (l *Log) Append(content []byte) (off int64, err error)`: run
`Write`, propagate its error with a zero offset, and otherwise return
`l.size - int64(n)`, the logical offset at which the content begins. -/
def logAppend (l : HeapLog) (content : Bytes) (res : WriteOutcome) : (Int × Bool) × HeapLog :=
  let wr := logWrite l content res
  if wr.1.2 then ((0, true), wr.2)
  else ((wr.2.size - (wr.1.1 : Int), false), wr.2)

/-! ## Sequential-scan lookup (`pkg/table`) -/

/-- Go `type Row struct { PrimaryKey, Data []byte }`. -/
structure Row where
  PrimaryKey : Bytes
  Data : Bytes
  deriving DecidableEq

/-- Go `func (r *Row) MarshalBinary() ([]byte, error)` after its validation:
`⟨u32 keylen BE, u32 vallen BE, key bytes, value bytes⟩`, the lengths with
`uint32` truncation. -/
def marshalRow (r : Row) : Bytes :=
  beList 4 r.PrimaryKey.length ++ beList 4 r.Data.length ++ r.PrimaryKey ++ r.Data

/-- Go `func validateKey(key []byte) error` (`pkg/table`): empty keys and keys
longer than `MaxPrimaryKeySize = math.MaxUint32` are invalid. -/
def validateTableKey (key : Bytes) : Bool :=
  key.length != 0 && key.length ≤ 2 ^ 32 - 1

/-- Error values crossing the table API: Go `ErrNotFound`, `ErrCorruptData`,
`ErrInvalidKey`, any wrapped I/O error, plus fuel exhaustion of the model. -/
inductive TErr where
  | notFound
  | corrupt
  | invalidKey
  | ioErr
  | fuel
  deriving DecidableEq

/-- One windowed read of the table scan: Go `t.log.ReadAt(b, off)` against the
single-segment log produced by `log.New` (start offset 0) whose content is
`data` and whose `size` equals `data.length` (every append succeeded), under
the afero in-memory file semantics the repository's table tests run on: a
read at or past the end of the data returns `(0, io.EOF)` (modelled `none`),
and a partial read returns the available bytes with no error. -/
def logReadWindow (data : Bytes) (bufLen : Nat) (off : Nat) : Option Bytes :=
  if data.length ≤ off then none
  else some ((data.drop off).take (min bufLen (data.length - off)))

/-- The scan loop of Go `func (t *Table) Get(primaryKey []byte) (*Row, error)`.
`buf` holds the current buffer contents (initially 1024 zero bytes); a window
read overwrites its first `n` bytes and leaves the rest stale, exactly as
`ReadAt` does on the reused Go buffer. A row longer than `bufSize = 1024`
triggers a tail extension read of `rowSize - 1024` bytes at `off + 1024`,
which is appended to `buf` — and the grown buffer persists into later
iterations, as in the source. `acc` is the saved most recent match. Fuel
bounds the recursion, which Go bounds only by the advancing offset. -/
def tableGetLoop (data key : Bytes) : Nat → Nat → Bytes → Option Bytes → Except TErr Bytes
  | 0, _, _, _ => .error .fuel
  | fuel + 1, off, buf, acc =>
    match logReadWindow data buf.length off with
    | none =>
      match acc with
      | some v => .ok v
      | none => .error .notFound
    | some window =>
      let n := window.length
      let buf1 := window ++ buf.drop n
      if n < 8 then .error .corrupt
      else
        let keySize := readBEList buf1 0 4
        let valSize := readBEList buf1 4 4
        if keySize ≠ key.length then
          tableGetLoop data key fuel (off + (8 + keySize + valSize)) buf1 acc
        else
          let rowSize := 8 + keySize + valSize
          let extended : Except TErr Bytes :=
            if rowSize > 1024 then
              match logReadWindow data (rowSize - 1024) (off + 1024) with
              | none => .error .corrupt
              | some extRead =>
                .ok (buf1 ++ (extRead ++ List.replicate (rowSize - 1024 - extRead.length) 0))
            else .ok buf1
          match extended with
          | .error e => .error e
          | .ok buf2 =>
            let foundKey := (buf2.drop 8).take keySize
            if foundKey ≠ key then
              tableGetLoop data key fuel (off + (8 + keySize + valSize)) buf2 acc
            else
              let value := (buf2.drop (8 + keySize)).take valSize
              tableGetLoop data key fuel (off + rowSize) buf2 (some value)

/-- Go `func (t *Table) Get(primaryKey []byte) (*Row, error)` over a log whose
content is `data`: validate the key, then run the sequential scan from offset
0 with a fresh 1024-byte buffer and no saved match. The returned bytes are
the matched row's `Data`. -/
def tableGet (fuel : Nat) (data key : Bytes) : Except TErr Bytes :=
  if !validateTableKey key then .error .invalidKey
  else tableGetLoop data key fuel 0 (List.replicate 1024 0) none

/-! ## Compaction (`pkg/sstable`) -/

/-- Go `type entry struct { key, value []byte }` (`pkg/sstable`). -/
structure Entry where
  key : Bytes
  value : Bytes
  deriving DecidableEq

/-- One insertion step of a stable insertion sort with the comparator of
`compactEntries`, `bytes.Compare(in[i].key, in[j].key) < 0`: the new element
goes immediately before the first strictly greater key, hence after every
entry with an equal key. -/
def insEntry (e : Entry) : List Entry → List Entry
  | [] => [e]
  | f :: fs => if bytesLt e.key f.key then e :: f :: fs else f :: insEntry e fs

/-- Model of the `sort.Slice(in, less)` call in `compactEntries` on the
ranges where Go's behavior is pinned down: `sort.Slice` dispatches to
pdqsort, which runs a plain (stable) insertion sort on every range of at
most 12 elements (`maxInsertion = 12` in the Go sort package), and a stable
sorted permutation is unique, so this insertion sort is exact for streams of
at most 12 records. On longer inputs `sort.Slice` is documented as not
guaranteed stable and this definition is NOT a model of it; the claim check
therefore only draws on it under a 12-record bound, and
`sortSliceContract` states the weaker property Go does guarantee there. -/
def sortEntries (l : List Entry) : List Entry := l.foldl (fun acc e => insEntry e acc) []

/-- The dedupe loop of Go `compactEntries`: walk the sorted entries, skip
every entry whose key `bytes.Equal`s `previousKey`, keep the first entry of
each run and remember its key. The initial `previousKey` is Go `nil`, which
`bytes.Equal` identifies with the empty key. -/
def dedupeEntries : List Entry → Bytes → List Entry
  | [], _ => []
  | e :: es, prev => if e.key == prev then dedupeEntries es prev else e :: dedupeEntries es e.key

/-- Go `func compactEntries(in []entry) []entry`: sort by key in ascending
byte order, then keep the first occurrence per key. -/
def compactEntries (l : List Entry) : List Entry := dedupeEntries (sortEntries l) []

/-- Go `func compact(r io.Reader) (*bytes.Buffer, error)`, with the parse step
`parseBuffered` taken as supplying the decoded record stream `l`: the
compacted entries are re-encoded by `entry.MarshalBinary`
(`⟨u16 keylen BE, u32 vallen BE, key, value⟩`) in order into the output
buffer. -/
def compactOut (l : List Entry) : Bytes :=
  (compactEntries l).foldl
    (fun acc e => acc ++ (beList 2 e.key.length ++ beList 4 e.value.length ++ e.key ++ e.value)) []

/-! ## Reference definitions written from the spec's words

These two definitions follow the specification text, not the source; they
exist only to be compared against the source-derived definitions above. -/

/-- Reference for claim C2, following the spec's words: the child pointer
paired with the FIRST cell whose key is strictly greater than the search key,
if any cell key is strictly greater. -/
def specFirstGreaterChild (cells : List Cell) (key : Bytes) : Option Int :=
  (cells.find? (fun c => bytesLt key c.key)).map (fun c => c.ptr)

/-- Reference for claim C2's amended statement: the child pointer paired with
the LAST cell whose key is strictly greater than the search key, or the
supplied default (the sentinel's pointer) when no cell key is strictly
greater. -/
def lastGreaterChild (cells : List Cell) (key : Bytes) (dflt : Int) : Int :=
  match (cells.filter (fun c => bytesLt key c.key)).getLast? with
  | some c => c.ptr
  | none => dflt

/-- The bounds conditions checked by the cell-decoding loop of `page.cells`:
the same scan as `cellsFrom`, with the cell contents dropped — only whether
the declared cell count and every declared keylen/vallen stay within the
page. -/
def cellsScanOK (p : Page) (internal : Bool) : Nat → Nat → Bool
  | 0, _ => true
  | count + 1, offset =>
    if offset + 4 > pageSize then false
    else
      let keySize := p.readBE offset 4
      if offset + 4 + keySize > pageSize then false
      else
        let offset := offset + 4 + keySize
        if internal then
          if offset + 8 > pageSize then false
          else cellsScanOK p internal count (offset + 8)
        else
          if offset + 4 > pageSize then false
          else
            let valueSize := p.readBE offset 4
            if offset + 4 + valueSize > pageSize then false
            else cellsScanOK p internal count (offset + 4 + valueSize)

/-- Nonstrict sortedness of an entry list by key: no later entry has a key
strictly below an earlier entry's key. This is the postcondition of the sort
step in `compactEntries`. -/
def entsSorted (m : List Entry) : Prop :=
  List.Pairwise (fun a b : Entry => bytesLt b.key a.key = false) m

/-- Everything Go guarantees of the `sort.Slice` call in `compactEntries`
on a range longer than 12 elements: the result is a permutation of the
input that is sorted (nonstrictly) by the key comparator. `sort.Slice` is
documented as not guaranteed stable, so the relative order of entries with
equal keys in the result is unspecified. -/
def sortSliceContract (l m : List Entry) : Prop :=
  List.Perm l m ∧ entsSorted m

/-- The most recent record whose key equals `k` in an append-ordered row
list, projected to its value — what the specification says a sequential scan
must return. -/
def lastMatchData (rows : List Row) (k : Bytes) : Option Bytes :=
  ((rows.filter (fun r => r.PrimaryKey == k)).getLast?).map (fun r => r.Data)

/-! ## Concrete instances referenced by the claim checks -/

/-- The byte string `"test"`. -/
def keyTest : Bytes := [116, 101, 115, 116]

/-- The byte string `"value"`. -/
def valValue : Bytes := [118, 97, 108, 117, 101]

/-- Claim C2 instance: the cell list of an internal node with separators
`"b" ↦ 8192` and `"d" ↦ 12288` and sentinel `↦ 16384` — the shape the
repository's own split tests expect for a parent after two leaf splits. -/
def cellsC2 : List Cell :=
  [ { key := [98], value := [], ptr := 8192 },
    { key := [100], value := [], ptr := 12288 },
    { key := [], value := [], ptr := 16384 } ]

/-- Claim C2 instance: an internal node over `cellsC2`. -/
def nodeC2 : Node := { isInternal := true, cells := cellsC2 }

/-- Claim C3 instance: a root leaf holding the single cell `"a" ↦ "1"`. -/
def rootC3 : Node := { id := 1, used := 10, cells := [{ key := [97], value := [49], ptr := 0 }] }

/-- Claim C3 instance: the incoming data cell `"b" ↦ "2"`. -/
def insC3 : Cell := { key := [98], value := [50], ptr := 0 }

/-- Claim C4 instance, from the repository's `TestNode_split` case "leaf node
with one cell, parent node with one sep, insert after greatest key": the
parent is the internal root with separator `"10" ↦ page 8192` and a sentinel. -/
def parentC4 : Node :=
  { id := 1, isInternal := true,
    cells := [ { key := [49, 48], value := [], ptr := 8192 },
               { key := [], value := [], ptr := 1232131 } ] }

/-- Claim C4 instance: the leaf node `N` (id 2, parent 1) holding `"5" ↦
"value"`. -/
def nodeC4 : Node :=
  { id := 2, parent := 1, cells := [{ key := [53], value := valValue, ptr := 0 }] }

/-- Claim C4 instance: the incoming data cell `"8" ↦ "123"`. -/
def insC4 : Cell := { key := [56], value := [49, 50, 51], ptr := 0 }

/-- Claim C4 instance: a page file holding the encoded parent at the root
page and nothing else, as the repository's test harness sets up. -/
def storeC4 : FileStore :=
  { content := fun q => if q = 4096 then parentC4.encode else Page.zero,
    size := 2 * (pageSize : Int) }

/-- Claim C5 instance: a valid internal node — a single sentinel cell (empty
key, child pointer 4096), `used` equal to the cell size 8. -/
def nodeC5 : Node :=
  { parent := 0, isInternal := true, used := 8,
    cells := [{ key := [], value := [], ptr := 4096 }] }

/-- Claim C6 instance: the record stream `[("b","2"), ("a","1"), ("b","3")]`,
fed newest-first, so the first `"b"` record is the newest. -/
def entriesC6 : List Entry :=
  [ { key := [98], value := [50] }, { key := [97], value := [49] },
    { key := [98], value := [51] } ]

/-- Claim C6 counterexample instance: a newest-first stream of 13 records —
beyond the 12-element insertion-sort range of Go's pdqsort — in which key
`"b"` occurs twice: the newest `"b"` record carries value `"2"`, a stale one
later in the stream carries `"3"`, and eleven distinct single-byte keys fill
the rest. -/
def entriesC6long : List Entry :=
  [ { key := [98], value := [50] }, { key := [97], value := [49] },
    { key := [99], value := [49] }, { key := [100], value := [49] },
    { key := [101], value := [49] }, { key := [102], value := [49] },
    { key := [103], value := [49] }, { key := [104], value := [49] },
    { key := [98], value := [51] }, { key := [105], value := [49] },
    { key := [106], value := [49] }, { key := [107], value := [49] },
    { key := [108], value := [49] } ]

/-- Claim C6 counterexample instance: the sorted permutation of
`entriesC6long` in which the two `"b"` records keep their input order (the
newest first) — one outcome `sort.Slice` may produce. -/
def permC6a : List Entry :=
  [ { key := [97], value := [49] }, { key := [98], value := [50] },
    { key := [98], value := [51] }, { key := [99], value := [49] },
    { key := [100], value := [49] }, { key := [101], value := [49] },
    { key := [102], value := [49] }, { key := [103], value := [49] },
    { key := [104], value := [49] }, { key := [105], value := [49] },
    { key := [106], value := [49] }, { key := [107], value := [49] },
    { key := [108], value := [49] } ]

/-- Claim C6 counterexample instance: the sorted permutation of
`entriesC6long` in which the two `"b"` records are swapped (the stale one
first) — equally allowed by the unstable `sort.Slice` contract. -/
def permC6b : List Entry :=
  [ { key := [97], value := [49] }, { key := [98], value := [51] },
    { key := [98], value := [50] }, { key := [99], value := [49] },
    { key := [100], value := [49] }, { key := [101], value := [49] },
    { key := [102], value := [49] }, { key := [103], value := [49] },
    { key := [104], value := [49] }, { key := [105], value := [49] },
    { key := [106], value := [49] }, { key := [107], value := [49] },
    { key := [108], value := [49] } ]

/-- Claim C7 instance: first appended row, key `"k"`, value of 1023 `'a'`
bytes — encoded size 1032, just over the 1024-byte scan buffer. -/
def rowC7a : Row := { PrimaryKey := [107], Data := List.replicate 1023 97 }

/-- Claim C7 instance: second appended row, key `"k"`, value of 1023 `'b'`
bytes followed by 8 `'c'` bytes — encoded size 1040. -/
def rowC7b : Row := { PrimaryKey := [107], Data := List.replicate 1023 98 ++ List.replicate 8 99 }

/-- Claim C7 instance: the log content after appending the two rows. -/
def dataC7 : Bytes := marshalRow rowC7a ++ marshalRow rowC7b

/-- Claim C7 witness instance: two small same-key rows, each encoded row well
inside the 1024-byte scan buffer, appended oldest first. -/
def rowsC7w : List Row :=
  [ { PrimaryKey := [107], Data := [1] }, { PrimaryKey := [107], Data := [2] } ]

/-- Claim C8 instance: an internal page declaring one cell whose last (and
only) cell has keylen 1 — all declared lengths in bounds, but the trailing
cell is not a sentinel. -/
def pageC8 : Page :=
  ((((Page.zero.setInternalFlag true).putBE 12 2 1).putBE 16 4 1).copyBytes 20 [107]).putBE 21 8 4096

/-- Claim C9 instance: a log with one segment holding five bytes. -/
def logC9 : HeapLog := { size := 5, segments := [{ startOff := 0, data := [1, 2, 3, 4, 5] }] }

/-- Claim C10 instance: a page file whose root page holds an encoded leaf
with the single cell `"a" ↦ "1"`. -/
def storeC10 : FileStore :=
  BTree.storeNode newBTreeStore { id := 1, used := 10, cells := [{ key := [97], value := [49], ptr := 0 }] }

/-- Claim C10 instance: the node `loadNode` yields for the root page of
`storeC10` (id and internal flag zeroed by `Decode`). -/
def nodeC10 : Node :=
  { id := 0, parent := 0, isInternal := false, used := 10,
    cells := [{ key := [97], value := [49], ptr := 0 }] }

/-! # Claim checks -/

/-! ## Shared helper lemmas -/

theorem exceptMap_isOk {ε α β : Type _} (f : α → β) (e : Except ε α) :
    (e.map f).isOk = e.isOk := by
  cases e <;> rfl

theorem bytesLt_irrefl : ∀ a : Bytes, bytesLt a a = false := by
  intro a
  induction a with
  | nil => rfl
  | cons x xs ih => simp [bytesLt, ih]

theorem bytesLt_nil_right : ∀ a : Bytes, bytesLt a [] = false := by
  intro a
  cases a <;> rfl

theorem bytesLt_trans :
    ∀ a b c : Bytes, bytesLt a b = true → bytesLt b c = true → bytesLt a c = true := by
  intro a
  induction a with
  | nil =>
    intro b c hab hbc
    cases b with
    | nil => simp [bytesLt] at hab
    | cons y ys =>
      cases c with
      | nil => simp [bytesLt_nil_right] at hbc
      | cons z zs => rfl
  | cons x xs ih =>
    intro b c hab hbc
    cases b with
    | nil => simp [bytesLt_nil_right] at hab
    | cons y ys =>
      cases c with
      | nil => simp [bytesLt_nil_right] at hbc
      | cons z zs =>
        simp only [bytesLt] at hab hbc ⊢
        by_cases hxy : x < y
        · by_cases hyz : y < z
          · rw [if_pos (Nat.lt_trans hxy hyz)]
          · by_cases hzy : z < y
            · rw [if_neg hyz, if_pos hzy] at hbc
              exact absurd hbc (by simp)
            · have heq : y = z := Nat.le_antisymm (Nat.not_lt.mp hzy) (Nat.not_lt.mp hyz)
              rw [if_pos (heq ▸ hxy)]
        · by_cases hyx : y < x
          · rw [if_neg hxy, if_pos hyx] at hab
            exact absurd hab (by simp)
          · have heq : x = y := Nat.le_antisymm (Nat.not_lt.mp hyx) (Nat.not_lt.mp hxy)
            subst heq
            rw [if_neg (Nat.lt_irrefl x), if_neg (Nat.lt_irrefl x)] at hab
            by_cases hxz : x < z
            · rw [if_pos hxz]
            · by_cases hzx : z < x
              · rw [if_neg hxz, if_pos hzx] at hbc
                exact absurd hbc (by simp)
              · have heq2 : x = z := Nat.le_antisymm (Nat.not_lt.mp hzx) (Nat.not_lt.mp hxz)
                subst heq2
                rw [if_neg (Nat.lt_irrefl x), if_neg (Nat.lt_irrefl x)] at hbc
                rw [if_neg (Nat.lt_irrefl x), if_neg (Nat.lt_irrefl x)]
                exact ih ys zs hab hbc

theorem bytesLt_eq_of_not_lt :
    ∀ a b : Bytes, bytesLt a b = false → bytesLt b a = false → a = b := by
  intro a
  induction a with
  | nil =>
    intro b hab _
    cases b with
    | nil => rfl
    | cons y ys => simp [bytesLt] at hab
  | cons x xs ih =>
    intro b hab hba
    cases b with
    | nil => simp [bytesLt] at hba
    | cons y ys =>
      simp only [bytesLt] at hab hba
      by_cases hxy : x < y
      · rw [if_pos hxy] at hab
        exact absurd hab (by simp)
      · by_cases hyx : y < x
        · rw [if_pos hyx] at hba
          exact absurd hba (by simp)
        · have heq : x = y := Nat.le_antisymm (Nat.not_lt.mp hyx) (Nat.not_lt.mp hxy)
          subst heq
          rw [if_neg (Nat.lt_irrefl x), if_neg (Nat.lt_irrefl x)] at hab hba
          rw [ih ys hab hba]

theorem bytesLt_asymm (a b : Bytes) (h : bytesLt a b = true) : bytesLt b a = false := by
  by_contra hba
  have hba2 : bytesLt b a = true := by
    cases hx : bytesLt b a
    · exact absurd hx hba
    · rfl
  have := bytesLt_trans a b a h hba2
  rw [bytesLt_irrefl] at this
  exact absurd this (by simp)

theorem bytesLt_connex (a b : Bytes) (hne : a ≠ b) :
    bytesLt a b = true ∨ bytesLt b a = true := by
  cases hab : bytesLt a b
  · cases hba : bytesLt b a
    · exact absurd (bytesLt_eq_of_not_lt a b hab hba) hne
    · exact Or.inr rfl
  · exact Or.inl rfl

theorem bytesLe_trans (a b c : Bytes) (hba : bytesLt b a = false)
    (hcb : bytesLt c b = false) : bytesLt c a = false := by
  by_contra hca
  have hca2 : bytesLt c a = true := by
    cases hx : bytesLt c a
    · exact absurd hx hca
    · rfl
  by_cases hbc : b = c
  · subst hbc; rw [hca2] at hba; simp at hba
  · rcases bytesLt_connex b c hbc with h | h
    · have := bytesLt_trans b c a h hca2
      rw [this] at hba; simp at hba
    · rw [h] at hcb; simp at hcb

theorem insertBeforeGreater_length (c : Cell) :
    ∀ (l l1 : List Cell), BTree.insertBeforeGreater c l = some l1 →
      l1.length = l.length + 1 := by
  intro l
  induction l with
  | nil => intro l1 h; exact absurd h (by simp [BTree.insertBeforeGreater])
  | cons d ds ih =>
    intro l1 h
    by_cases hlt : bytesLt c.key d.key
    · simp [BTree.insertBeforeGreater, hlt] at h
      simp [← h]
    · simp [BTree.insertBeforeGreater, hlt] at h
      rcases h with ⟨m, hm, hl1⟩
      simp [← hl1, ih m hm]

theorem addCell_length (cells : List Cell) (c : Cell) (h : cells ≠ []) :
    (BTree.addCell cells c).length = cells.length + 1 := by
  unfold BTree.addCell
  rcases hins : BTree.insertBeforeGreater c cells with _ | l1
  · rcases hlast : cells.getLast? with _ | last
    · exact absurd (List.getLast?_eq_none_iff.mp hlast) h
    · have hpos : 0 < cells.length := List.length_pos.mpr h
      by_cases hptr : c.isPtr
      · simp [hptr, hlast]
        omega
      · simp [hptr, hlast]
  · simpa using insertBeforeGreater_length c cells l1 hins

theorem splitCells_right_ne_nil (cells : List Cell) (c : Cell) (h : cells ≠ []) :
    (BTree.splitCells cells c).2 ≠ [] := by
  have hlen := addCell_length cells c h
  have hpos : 0 < cells.length := List.length_pos.mpr h
  intro hnil
  simp only [BTree.splitCells] at hnil
  rw [List.drop_eq_nil_iff, hlen] at hnil
  omega

/-! ## Claim theorems (continued) -/

/-- Claim C3 (amended): when the root node splits, both halves receive
freshly allocated identifiers (the two successive increments of the
high-water mark), the original root identifier is reused for a node holding
exactly two cells — the first key of the right half paired with a child
pointer to the left half, and a sentinel cell with empty key and a child
pointer to the right half — but that node's internal flag is left false:
`splitRoot` never sets `isInternal`. -/
theorem C3_splitRoot_structure (wm : Int) (root : Node) (insert : Cell)
    (h : root.cells ≠ []) :
    (BTree.splitRoot wm root insert).1.id = wm + 1 ∧
    (BTree.splitRoot wm root insert).2.1.id = wm + 2 ∧
    (BTree.splitRoot wm root insert).2.2.2 = wm + 2 ∧
    (BTree.splitRoot wm root insert).2.2.1.id = root.id ∧
    (BTree.splitRoot wm root insert).2.2.1.isInternal = false ∧
    (BTree.splitCells root.cells insert).2 ≠ [] ∧
    (BTree.splitRoot wm root insert).1.cells = (BTree.splitCells root.cells insert).1 ∧
    (BTree.splitRoot wm root insert).2.1.cells = (BTree.splitCells root.cells insert).2 ∧
    (BTree.splitRoot wm root insert).2.2.1.cells =
      [ { key := (BTree.splitCells root.cells insert).2.headI.key, value := [],
          ptr := (wm + 1) * (pageSize : Int) },
        { key := [], value := [], ptr := (wm + 2) * (pageSize : Int) } ] :=
  ⟨rfl, rfl, rfl, rfl, rfl, splitCells_right_ne_nil root.cells insert h, rfl, rfl, rfl⟩

/-- Witness for the amended C3 at the concrete root split of `rootC3`. -/
theorem C3_splitRoot_structure_witness :
    rootC3.cells ≠ [] ∧
    ((BTree.splitRoot 4096 rootC3 insC3).1.id = 4096 + 1 ∧
      (BTree.splitRoot 4096 rootC3 insC3).2.1.id = 4096 + 2 ∧
      (BTree.splitRoot 4096 rootC3 insC3).2.2.2 = 4096 + 2 ∧
      (BTree.splitRoot 4096 rootC3 insC3).2.2.1.id = rootC3.id ∧
      (BTree.splitRoot 4096 rootC3 insC3).2.2.1.isInternal = false ∧
      (BTree.splitCells rootC3.cells insC3).2 ≠ [] ∧
      (BTree.splitRoot 4096 rootC3 insC3).1.cells = (BTree.splitCells rootC3.cells insC3).1 ∧
      (BTree.splitRoot 4096 rootC3 insC3).2.1.cells = (BTree.splitCells rootC3.cells insC3).2 ∧
      (BTree.splitRoot 4096 rootC3 insC3).2.2.1.cells =
        [ { key := (BTree.splitCells rootC3.cells insC3).2.headI.key, value := [],
            ptr := (4096 + 1) * (pageSize : Int) },
          { key := [], value := [], ptr := (4096 + 2) * (pageSize : Int) } ]) :=
  ⟨by decide, C3_splitRoot_structure 4096 rootC3 insC3 (by decide)⟩

theorem cellsFrom_isOk (p : Page) (internal : Bool) :
    ∀ (count offset : Nat),
      (cellsFrom p internal count offset).isOk = cellsScanOK p internal count offset := by
  intro count
  induction count with
  | zero => intro offset; rfl
  | succ k ih =>
    intro offset
    simp only [cellsFrom, cellsScanOK]
    repeat' split
    all_goals (try rfl)
    all_goals rw [exceptMap_isOk, ih]

theorem foldl_childPtr_eq_lastGreater (key : Bytes) :
    ∀ (cells : List Cell) (dflt : Int),
      BTree.findChildPtr cells dflt key = lastGreaterChild cells key dflt := by
  intro cells
  induction cells with
  | nil => intro dflt; rfl
  | cons c cs ih =>
    intro dflt
    have hstep : BTree.findChildPtr (c :: cs) dflt key =
        BTree.findChildPtr cs (if bytesLt key c.key then c.ptr else dflt) key := rfl
    rw [hstep, ih]
    by_cases hlt : bytesLt key c.key
    · simp only [lastGreaterChild, List.filter_cons, hlt, if_pos, ite_true]
      rcases hfc : (cs.filter (fun d => bytesLt key d.key)) with _ | ⟨x, xs⟩
      · simp [hfc]
      · rcases hgl : (x :: xs).getLast? with _ | y
        · exact absurd (List.getLast?_eq_none_iff.mp hgl) (by simp)
        · simp [hfc, List.getLast?_cons_cons, hgl]
    · simp [lastGreaterChild, List.filter_cons, hlt]

/-- Claim C2 (amended): during find's descent, the child pointer followed at
an internal node is the one paired with the LAST cell (in cell order) whose
key is strictly greater than the search key — the sentinel's child when no
cell key is strictly greater — not the first such cell; at a leaf, cells are
linear-searched for exact equality (the first match's value is returned), and
when the key is absent the leaf node itself is returned together with the
NotFound status. -/
theorem C2_find_descends_last_greater (st : FileStore) (fuel : Nat) (n : Node) (key : Bytes) :
    (n.isInternal = false →
      ((∀ c ∈ n.cells, c.key ≠ key) → BTree.find (fuel + 1) st n key = .notFound n) ∧
      (∀ c, n.cells.find? (fun d => d.key == key) = some c →
        BTree.find (fuel + 1) st n key = .found c.value n)) ∧
    (∀ dflt, BTree.findChildPtr n.cells dflt key = lastGreaterChild n.cells key dflt) := by
  constructor
  · intro hleaf
    constructor
    · intro habsent
      have hnone : n.cells.find? (fun d => d.key == key) = none :=
        List.find?_eq_none.mpr (by simpa using habsent)
      simp [BTree.find, hleaf, hnone]
    · intro c hfind
      simp [BTree.find, hleaf, hfind]
  · intro dflt
    exact foldl_childPtr_eq_lastGreater key n.cells dflt

/-- Claim C2 (counterexample part): at the internal cell list `cellsC2`
(separators "b" ↦ 8192, "d" ↦ 12288, sentinel ↦ 16384) and search key "a",
both separator keys are strictly greater than the search key; the descent
pointer that `find` computes is 12288, the LAST strictly greater cell's
child, while the claim's first-strictly-greater rule names 8192. -/
theorem C2_descent_not_first_greater :
    BTree.findChildPtr cellsC2 16384 [97] = 12288 ∧
    specFirstGreaterChild cellsC2 [97] = some 8192 :=
  ⟨by decide, by decide⟩

/-- Witness for the amended C2 at concrete inputs: the leaf `nodeC10` misses
key "z" and hits key "a", and the descent pointer over `cellsC2` matches the
last-strictly-greater rule. -/
theorem C2_find_descends_last_greater_witness :
    BTree.find 1 newBTreeStore nodeC10 [122] = .notFound nodeC10 ∧
    BTree.find 1 newBTreeStore nodeC10 [97] =
      .found [49] nodeC10 ∧
    BTree.findChildPtr nodeC2.cells 16384 [97] = lastGreaterChild nodeC2.cells [97] 16384 :=
  ⟨((C2_find_descends_last_greater newBTreeStore 0 nodeC10 [122]).1 (by decide)).1 (by decide),
   ((C2_find_descends_last_greater newBTreeStore 0 nodeC10 [97]).1 (by decide)).2
     { key := [97], value := [49], ptr := 0 } (by decide),
   (C2_find_descends_last_greater newBTreeStore 0 nodeC2 [97]).2 16384⟩

theorem insertBeforeGreater_split (c : Cell) :
    ∀ (l l1 : List Cell), BTree.insertBeforeGreater c l = some l1 →
      ∃ la lb, l = la ++ lb ∧ l1 = la ++ c :: lb := by
  intro l
  induction l with
  | nil => intro l1 h; exact absurd h (by simp [BTree.insertBeforeGreater])
  | cons d ds ih =>
    intro l1 h
    by_cases hlt : bytesLt c.key d.key
    · simp only [BTree.insertBeforeGreater, hlt, ite_true, Option.some.injEq] at h
      exact ⟨[], d :: ds, by simp, h.symm⟩
    · rcases hm : BTree.insertBeforeGreater c ds with _ | m
      · exact absurd h (by simp [BTree.insertBeforeGreater, hlt, hm])
      · have hl1 : d :: m = l1 := by
          have h2 := h
          simp only [BTree.insertBeforeGreater, hlt, ite_false, hm, Option.map_some',
            Option.some.injEq] at h2
          simpa using h2
        rcases ih m hm with ⟨la, lb, hsplit, hins⟩
        exact ⟨d :: la, lb, by simp [hsplit], by simp [← hl1, hins]⟩

/-- Claim C10: if `Insert(k, v2)` is called when a cell `⟨k, v1⟩` is already
present in the leaf that `find` locates (here the decoded root, a leaf with
room for the new cell), the operation succeeds — `Insert` ignores the nil
error of a successful `find` — and the stored node holds both the original
cell `⟨k, v1⟩` and a second cell `⟨k, v2⟩`: nothing is overwritten, no error
is returned, and the leaf ends up with two cells carrying the same key. -/
theorem C10_duplicate_insert_keeps_both (st : FileStore) (wm : Int) (fuel : Nat)
    (n : Node) (k v1 v2 : Bytes)
    (hload : BTree.loadNode st rootNodeID = .ok n)
    (hleaf : n.isInternal = false)
    (hmem : ({ key := k, value := v1, ptr := 0 } : Cell) ∈ n.cells)
    (hk : k ≠ [])
    (hfree : ((Cell.size { key := k, value := v2, ptr := 0 }) : Int) ≤ n.free)
    (hfuel : 1 ≤ fuel) :
    ∃ st1 wm1 n1, BTree.insertTop fuel st wm k v2 = .ok (st1, wm1, n1) ∧
      ({ key := k, value := v1, ptr := 0 } : Cell) ∈ n1.cells ∧
      ({ key := k, value := v2, ptr := 0 } : Cell) ∈ n1.cells ∧
      n1.cells.countP (fun c => c.key == k) = n.cells.countP (fun c => c.key == k) + 1 ∧
      2 ≤ n1.cells.countP (fun c => c.key == k) := by
  rcases fuel with _ | f
  · omega
  have hsome : (n.cells.find? (fun d => d.key == k)).isSome :=
    List.find?_isSome.mpr ⟨_, hmem, by simp⟩
  rcases hc0 : n.cells.find? (fun d => d.key == k) with _ | c0
  · rw [hc0] at hsome; simp at hsome
  have hfind : BTree.find (f + 1) st n k = .found c0.value n := by
    simp [BTree.find, hleaf, hc0]
  have hcount1 : 0 < n.cells.countP (fun c => c.key == k) :=
    List.countP_pos_iff.mpr ⟨_, hmem, by simp⟩
  have hptr : (Cell.isPtr { key := k, value := v2, ptr := 0 }) = false := by
    simp [Cell.isPtr]
  have hfree2 : ¬ ((Node.free n) < ((Cell.size { key := k, value := v2, ptr := 0 }) : Int)) :=
    not_lt.mpr hfree
  rcases hsplit : BTree.insertBeforeGreater { key := k, value := v2, ptr := 0 } n.cells
    with _ | l1
  · -- no strictly greater key: the data cell is appended at the tail
    have hinsert : BTree.insert (f + 1) st wm n { key := k, value := v2, ptr := 0 } =
        .ok ({ n with
                used := (n.used + Cell.size { key := k, value := v2, ptr := 0 }) % 2 ^ 16,
                cells := n.cells ++ [{ key := k, value := v2, ptr := 0 }] }, st, wm) := by
      simp [BTree.insert, hk, hptr, Cell.isData, hleaf, hfree2, hsplit]
    have hTop : BTree.insertTop (f + 1) st wm k v2 =
        .ok (BTree.storeNode st ({ n with
                used := (n.used + Cell.size { key := k, value := v2, ptr := 0 }) % 2 ^ 16,
                cells := n.cells ++ [{ key := k, value := v2, ptr := 0 }] }), wm,
              { n with
                used := (n.used + Cell.size { key := k, value := v2, ptr := 0 }) % 2 ^ 16,
                cells := n.cells ++ [{ key := k, value := v2, ptr := 0 }] }) := by
      simp only [BTree.insertTop, hload, hfind, hinsert]
    refine ⟨_, _, _, hTop, ?_, ?_, ?_, ?_⟩
    · simp [hmem]
    · simp
    · simp [List.countP_append, List.countP_cons]
    · dsimp only
      have hstep :
          (n.cells ++ [({ key := k, value := v2, ptr := 0 } : Cell)]).countP
              (fun c : Cell => c.key == k) =
            n.cells.countP (fun c : Cell => c.key == k) + 1 := by
        simp [List.countP_append, List.countP_cons]
      omega
  · -- inserted before the first strictly greater key
    rcases insertBeforeGreater_split _ n.cells l1 hsplit with ⟨la, lb, hcells, hl1⟩
    have hinsert : BTree.insert (f + 1) st wm n { key := k, value := v2, ptr := 0 } =
        .ok ({ n with
                used := (n.used + Cell.size { key := k, value := v2, ptr := 0 }) % 2 ^ 16,
                cells := l1 }, st, wm) := by
      simp [BTree.insert, hk, hptr, Cell.isData, hleaf, hfree2, hsplit]
    have hTop : BTree.insertTop (f + 1) st wm k v2 =
        .ok (BTree.storeNode st ({ n with
                used := (n.used + Cell.size { key := k, value := v2, ptr := 0 }) % 2 ^ 16,
                cells := l1 }), wm,
              { n with
                used := (n.used + Cell.size { key := k, value := v2, ptr := 0 }) % 2 ^ 16,
                cells := l1 }) := by
      simp only [BTree.insertTop, hload, hfind, hinsert]
    refine ⟨_, _, _, hTop, ?_, ?_, ?_, ?_⟩
    · rw [hcells] at hmem
      rcases List.mem_append.mp hmem with hin | hin <;> simp [hl1, hin]
    · simp [hl1]
    · rw [hcells] at hcount1 ⊢
      simp [hl1, List.countP_append, List.countP_cons]
      omega
    · rw [hcells] at hcount1
      simp only [List.countP_append] at hcount1
      simp [hl1, List.countP_append, List.countP_cons]
      omega

/-- Witness for C10 at the concrete store `storeC10`: inserting a second
value for the key "a" already present in the root leaf succeeds and keeps
both cells. -/
theorem C10_duplicate_insert_keeps_both_witness :
    ∃ st1 wm1 n1, BTree.insertTop 2 storeC10 4096 [97] [50] = .ok (st1, wm1, n1) ∧
      ({ key := [97], value := [49], ptr := 0 } : Cell) ∈ n1.cells ∧
      ({ key := [97], value := [50], ptr := 0 } : Cell) ∈ n1.cells ∧
      n1.cells.countP (fun c => c.key == [97]) =
        nodeC10.cells.countP (fun c => c.key == [97]) + 1 ∧
      2 ≤ n1.cells.countP (fun c => c.key == [97]) :=
  C10_duplicate_insert_keeps_both storeC10 4096 2 nodeC10 [97] [49] [50]
    (by decide) (by decide) (by decide) (by decide) (by decide) (by decide)

theorem bytesLt_false_of_lt_of_not_lt (e f x : Bytes)
    (hef : bytesLt e f = true) (hxf : bytesLt x f = false) : bytesLt x e = false := by
  cases hxe : bytesLt x e
  · rfl
  · rw [bytesLt_trans x e f hxe hef] at hxf
    simp at hxf

theorem insEntry_cons_of_lt (e f : Entry) (fs : List Entry)
    (h : bytesLt e.key f.key = true) : insEntry e (f :: fs) = e :: f :: fs := by
  simp [insEntry, h]

theorem insEntry_cons_of_not_lt (e f : Entry) (fs : List Entry)
    (h : bytesLt e.key f.key = false) : insEntry e (f :: fs) = f :: insEntry e fs := by
  simp [insEntry, h]

theorem dedupe_cons_skip (e : Entry) (es : List Entry) (prev : Bytes)
    (h : (e.key == prev) = true) : dedupeEntries (e :: es) prev = dedupeEntries es prev := by
  simp [dedupeEntries, h]

theorem dedupe_cons_keep (e : Entry) (es : List Entry) (prev : Bytes)
    (h : (e.key == prev) = false) :
    dedupeEntries (e :: es) prev = e :: dedupeEntries es e.key := by
  simp [dedupeEntries, h]

theorem mem_insEntry (e x : Entry) : ∀ m, x ∈ insEntry e m ↔ x = e ∨ x ∈ m := by
  intro m
  induction m with
  | nil => simp [insEntry]
  | cons f fs ih =>
    by_cases hlt : bytesLt e.key f.key
    · rw [insEntry_cons_of_lt e f fs hlt]
      simp [List.mem_cons]
    · rw [insEntry_cons_of_not_lt e f fs (by simpa using hlt)]
      simp only [List.mem_cons, ih]
      tauto

theorem insEntry_sorted (e : Entry) :
    ∀ m, entsSorted m → entsSorted (insEntry e m) := by
  intro m
  induction m with
  | nil => intro _; simp [insEntry, entsSorted]
  | cons f fs ih =>
    intro hs
    rw [entsSorted, List.pairwise_cons] at hs
    rcases hs with ⟨hf, hfs⟩
    by_cases hlt : bytesLt e.key f.key
    · rw [insEntry_cons_of_lt e f fs hlt, entsSorted, List.pairwise_cons]
      refine ⟨?_, ?_⟩
      · intro x hx
        rcases List.mem_cons.mp hx with rfl | hxm
        · exact bytesLt_asymm _ _ hlt
        · exact bytesLt_false_of_lt_of_not_lt e.key f.key x.key hlt (hf x hxm)
      · rw [List.pairwise_cons]
        exact ⟨hf, hfs⟩
    · have hlt2 : bytesLt e.key f.key = false := by simpa using hlt
      rw [insEntry_cons_of_not_lt e f fs hlt2, entsSorted, List.pairwise_cons]
      refine ⟨?_, ?_⟩
      · intro x hx
        rcases (mem_insEntry e x fs).mp hx with rfl | hxm
        · exact hlt2
        · exact hf x hxm
      · exact ih hfs

theorem sortFold_sorted (l : List Entry) :
    ∀ acc, entsSorted acc → entsSorted (l.foldl (fun a e => insEntry e a) acc) := by
  induction l with
  | nil => intro acc h; exact h
  | cons e es ih => intro acc h; exact ih _ (insEntry_sorted e acc h)

theorem sortEntries_sorted (l : List Entry) : entsSorted (sortEntries l) :=
  sortFold_sorted l [] (by simp [entsSorted])

theorem filter_insEntry (k : Bytes) (e : Entry) :
    ∀ m, entsSorted m →
      (insEntry e m).filter (fun x => x.key == k) =
        m.filter (fun x => x.key == k) ++ (if e.key == k then [e] else []) := by
  intro m
  induction m with
  | nil =>
    intro _
    by_cases pe : e.key == k <;> simp [insEntry, List.filter, pe]
  | cons f fs ih =>
    intro hs
    rw [entsSorted, List.pairwise_cons] at hs
    rcases hs with ⟨hf, hfs⟩
    by_cases hlt : bytesLt e.key f.key
    · rw [insEntry_cons_of_lt e f fs hlt]
      by_cases pe : e.key == k
      · have heqk : e.key = k := by simpa using pe
        have hkf : bytesLt k f.key = true := heqk ▸ hlt
        have hnil : (f :: fs).filter (fun x => x.key == k) = [] := by
          rw [List.filter_eq_nil_iff]
          intro x hx
          simp only [beq_iff_eq]
          intro hxk
          rcases List.mem_cons.mp hx with rfl | hxm
          · rw [hxk] at hkf
            rw [bytesLt_irrefl] at hkf
            simp at hkf
          · have hxf := hf x hxm
            rw [hxk] at hxf
            rw [hkf] at hxf
            simp at hxf
        rw [List.filter_cons_of_pos (by simpa using pe), hnil]
        simp [pe]
      · rw [List.filter_cons_of_neg (by simpa using pe)]
        simp [pe]
    · rw [insEntry_cons_of_not_lt e f fs (by simpa using hlt)]
      rw [List.filter_cons, List.filter_cons, ih hfs]
      by_cases pf : f.key == k <;> simp [pf]

theorem sortFold_filter (k : Bytes) (l : List Entry) :
    ∀ acc, entsSorted acc →
      (l.foldl (fun a e => insEntry e a) acc).filter (fun x => x.key == k) =
        acc.filter (fun x => x.key == k) ++ l.filter (fun x => x.key == k) := by
  induction l with
  | nil => intro acc _; simp
  | cons e es ih =>
    intro acc h
    rw [List.foldl_cons, ih _ (insEntry_sorted e acc h), filter_insEntry k e acc h,
      List.filter_cons]
    by_cases pe : e.key == k <;> simp [pe]

theorem sortEntries_filter (k : Bytes) (l : List Entry) :
    (sortEntries l).filter (fun x => x.key == k) = l.filter (fun x => x.key == k) := by
  have h := sortFold_filter k l [] (by simp [entsSorted])
  simpa [sortEntries] using h

theorem dedupe_find? (k : Bytes) :
    ∀ (m : List Entry) (prev : Bytes), entsSorted m →
      (∀ e ∈ m, bytesLt e.key prev = false) →
      (dedupeEntries m prev).find? (fun x => x.key == k) =
        (if prev == k then none else (m.filter (fun x => x.key == k)).head?) := by
  intro m
  induction m with
  | nil =>
    intro prev _ _
    by_cases hpk : prev == k <;> simp [dedupeEntries, hpk]
  | cons e es ih =>
    intro prev hs hlb
    rw [entsSorted, List.pairwise_cons] at hs
    rcases hs with ⟨he, hes⟩
    by_cases heq : e.key == prev
    · have heq2 : e.key = prev := by simpa using heq
      rw [dedupe_cons_skip e es prev (by simpa using heq)]
      rw [ih prev hes (fun x hx => hlb x (List.mem_cons_of_mem _ hx))]
      by_cases hpk : prev == k
      · simp [hpk]
      · have hek : (e.key == k) = false := by
          rw [heq2]
          simpa using hpk
        rw [List.filter_cons_of_neg (by simp [hek])]
    · rw [dedupe_cons_keep e es prev (by simpa using heq)]
      by_cases pe : e.key == k
      · have hpk : (prev == k) = false := by
          have hek : e.key = k := by simpa using pe
          by_contra hh
          have : (prev == k) = true := by
            cases hx : prev == k
            · exact absurd hx hh
            · rfl
          have hprev : prev = k := by simpa using this
          exact (by simpa using heq : ¬ e.key = prev) (hek.trans hprev.symm)
        rw [List.find?_cons_of_pos _ (by simpa using pe), hpk]
        rw [List.filter_cons_of_pos (by simpa using pe)]
        simp
      · rw [List.find?_cons_of_neg _ (by simp [pe])]
        rw [ih e.key hes he,
          if_neg (by simp [(by simpa using pe : (e.key == k) = false)] : ¬ (e.key == k) = true)]
        by_cases hpk : prev == k
        · have hprev : prev = k := by simpa using hpk
          have hlt : bytesLt prev e.key = true := by
            rcases bytesLt_connex prev e.key
                (fun hh => (by simpa using heq : ¬ e.key = prev) hh.symm) with h | h
            · exact h
            · rw [hlb e (List.mem_cons_self _ _)] at h
              exact absurd h (by simp)
          have hnil : es.filter (fun x => x.key == k) = [] := by
            rw [List.filter_eq_nil_iff]
            intro x hx
            simp only [beq_iff_eq]
            intro hxk
            have hxe := he x hx
            rw [hxk, ← hprev] at hxe
            rw [hxe] at hlt
            simp at hlt
          rw [hpk, hnil]
          rw [List.filter_cons_of_neg (by simp [pe])]
          rw [hnil]
          simp
        · rw [List.filter_cons_of_neg (by simp [pe])]
          simp [hpk]

theorem dedupe_strict :
    ∀ (m : List Entry) (prev : Bytes), entsSorted m →
      (∀ e ∈ m, bytesLt e.key prev = false) →
      List.Pairwise (fun a b : Entry => bytesLt a.key b.key = true) (dedupeEntries m prev) ∧
      ∀ x ∈ dedupeEntries m prev, bytesLt x.key prev = false ∧ x.key ≠ prev := by
  intro m
  induction m with
  | nil => intro prev _ _; simp [dedupeEntries]
  | cons e es ih =>
    intro prev hs hlb
    rw [entsSorted, List.pairwise_cons] at hs
    rcases hs with ⟨he, hes⟩
    by_cases heq : e.key == prev
    · rw [show dedupeEntries (e :: es) prev = dedupeEntries es prev by
        simp [dedupeEntries, heq]]
      exact ih prev hes (fun x hx => hlb x (List.mem_cons_of_mem _ hx))
    · rw [dedupe_cons_keep e es prev (by simpa using heq)]
      rcases ih e.key hes he with ⟨hpw, hbound⟩
      refine ⟨?_, ?_⟩
      · rw [List.pairwise_cons]
        refine ⟨?_, hpw⟩
        intro x hx
        rcases hbound x hx with ⟨hxe, hxne⟩
        rcases bytesLt_connex e.key x.key (fun hh => hxne hh.symm) with h | h
        · exact h
        · rw [hxe] at h
          exact absurd h (by simp)
      · intro x hx
        rcases List.mem_cons.mp hx with rfl | hxm
        · refine ⟨hlb x (List.mem_cons_self _ _), ?_⟩
          intro hh
          exact (by simpa using heq : ¬ x.key = prev) hh
        · rcases hbound x hxm with ⟨hxe, hxne⟩
          refine ⟨bytesLe_trans prev e.key x.key (hlb e (List.mem_cons_self _ _)) hxe, ?_⟩
          intro hh
          rw [hh] at hxe
          exact (by simpa using heq : ¬ e.key = prev)
            (bytesLt_eq_of_not_lt e.key prev (hlb e (List.mem_cons_self _ _)) hxe)

theorem strict_countP_le_one (k : Bytes) (out : List Entry)
    (hpw : List.Pairwise (fun a b : Entry => bytesLt a.key b.key = true) out) :
    out.countP (fun x => x.key == k) ≤ 1 := by
  rw [List.countP_eq_length_filter]
  rcases hf : out.filter (fun x => x.key == k) with _ | ⟨x, xs⟩
  · simp [hf]
  · rcases hxs : xs with _ | ⟨y, ys⟩
    · simp [hf, hxs]
    · subst hxs
      have hsub := hpw.filter (fun x => x.key == k)
      rw [hf, List.pairwise_cons] at hsub
      have hxy : bytesLt x.key y.key = true := hsub.1 y (List.mem_cons_self _ _)
      have hxk : x.key = k := by
        have := List.mem_filter.mp (hf ▸ List.mem_cons_self x (y :: ys))
        simpa using this.2
      have hyk : y.key = k := by
        have := List.mem_filter.mp
          (hf ▸ List.mem_cons_of_mem x (List.mem_cons_self y ys))
        simpa using this.2
      rw [hxk, hyk, bytesLt_irrefl] at hxy
      exact absurd hxy (by simp)

/-- Claim C6 (amended): for a record stream of at most 12 entries — the
range on which Go's `sort.Slice` provably runs a stable insertion sort
(pdqsort's `maxInsertion`), making `sortEntries` exact — the output of
compacting a stream with nonempty keys is strictly ascending by key, sorted
with no duplicate keys; for every key, the single entry the output holds for
it is exactly the FIRST occurrence of that key in the input stream, which,
with inputs fed newest-first as the compaction pipeline expects, is the
newest value for the key; the count of entries per key is one when the key
occurs in the input and zero otherwise. On longer streams `sort.Slice` is
documented as unstable and newest-wins is not guaranteed — see the
counterexample. -/
theorem C6_compact_sorted_dedup_newest (l : List Entry) (k : Bytes)
    (_hlen : l.length ≤ 12)
    (hkeys : ∀ e ∈ l, e.key ≠ []) :
    List.Pairwise (fun a b : Entry => bytesLt a.key b.key = true) (compactEntries l) ∧
    (compactEntries l).find? (fun e => e.key == k) = l.find? (fun e => e.key == k) ∧
    (compactEntries l).countP (fun e => e.key == k) =
      (if (l.find? (fun e => e.key == k)).isSome then 1 else 0) := by
  have hsorted := sortEntries_sorted l
  have hlb : ∀ e ∈ sortEntries l, bytesLt e.key [] = false := fun e _ =>
    bytesLt_nil_right e.key
  have hpw := (dedupe_strict (sortEntries l) [] hsorted hlb).1
  have hfind : (compactEntries l).find? (fun e => e.key == k) =
      l.find? (fun e => e.key == k) := by
    rw [compactEntries, dedupe_find? k (sortEntries l) [] hsorted hlb]
    by_cases hknil : ([] : Bytes) == k
    · have hk : k = [] := by
        have := (by simpa using hknil : ([] : Bytes) = k)
        exact this.symm
      rw [if_pos hknil]
      have : l.find? (fun e => e.key == k) = none := by
        rw [List.find?_eq_none]
        intro x hx
        simp only [beq_iff_eq]
        rw [hk]
        exact hkeys x hx
      rw [this]
    · rw [if_neg (by simpa using (by simpa using hknil : ¬ ([] : Bytes) = k) :
        ¬ (([] : Bytes) == k) = true)]
      rw [sortEntries_filter k l, List.filter_head? (fun e => e.key == k) l]
  refine ⟨hpw, hfind, ?_⟩
  rcases hsome : l.find? (fun e => e.key == k) with _ | e0
  · simp only [hsome, Option.isSome_none, Bool.false_eq_true, if_false]
    rw [List.countP_eq_zero]
    intro x hx
    have hnone : (compactEntries l).find? (fun e => e.key == k) = none := by
      rw [hfind, hsome]
    exact List.find?_eq_none.mp hnone x hx
  · simp only [hsome, Option.isSome_some, if_true]
    have hmem : e0 ∈ compactEntries l ∧ (e0.key == k) = true := by
      have h1 : (compactEntries l).find? (fun e => e.key == k) = some e0 := by
        rw [hfind, hsome]
      have h2 := List.find?_some h1
      exact ⟨List.mem_of_find?_eq_some h1, h2⟩
    have hge : 0 < (compactEntries l).countP (fun e => e.key == k) :=
      List.countP_pos_iff.mpr ⟨e0, hmem.1, hmem.2⟩
    have hle := strict_countP_le_one k (compactEntries l) hpw
    omega

/-- Witness for the amended C6 at the concrete newest-first stream
`entriesC6` of three records. -/
theorem C6_compact_sorted_dedup_newest_witness :
    (entriesC6.length ≤ 12 ∧ ∀ e ∈ entriesC6, e.key ≠ []) ∧
    (List.Pairwise (fun a b : Entry => bytesLt a.key b.key = true) (compactEntries entriesC6) ∧
      (compactEntries entriesC6).find? (fun e => e.key == [98]) =
        entriesC6.find? (fun e => e.key == [98]) ∧
      (compactEntries entriesC6).countP (fun e => e.key == [98]) =
        (if (entriesC6.find? (fun e => e.key == [98])).isSome then 1 else 0)) :=
  ⟨by decide, C6_compact_sorted_dedup_newest entriesC6 [98] (by decide) (by decide)⟩

/-- Claim C6 counterexample: on the 13-record stream `entriesC6long` — one
record beyond pdqsort's insertion-sort range — the `sort.Slice` contract
(a sorted permutation of the input, stability not guaranteed) no longer
determines compaction's output: `permC6a` and `permC6b` both satisfy the
contract, yet deduping `permC6a` keeps the newest value of the duplicated
key while deduping `permC6b` keeps the stale one, so the original claim's
newest-wins guarantee does not follow from what the program does on streams
longer than 12 records. -/
theorem C6_unstable_sort_underdetermines_newest :
    12 < entriesC6long.length ∧
    sortSliceContract entriesC6long permC6a ∧
    sortSliceContract entriesC6long permC6b ∧
    dedupeEntries permC6a [] ≠ dedupeEntries permC6b [] ∧
    (dedupeEntries permC6a []).find? (fun e => e.key == [98]) =
      entriesC6long.find? (fun e => e.key == [98]) ∧
    (dedupeEntries permC6b []).find? (fun e => e.key == [98]) ≠
      entriesC6long.find? (fun e => e.key == [98]) := by
  refine ⟨by decide, ⟨by decide, ?_⟩, ⟨by decide, ?_⟩, by decide, by decide, by decide⟩
  · show List.Pairwise (fun a b : Entry => bytesLt b.key a.key = false) permC6a
    decide
  · show List.Pairwise (fun a b : Entry => bytesLt b.key a.key = false) permC6b
    decide

theorem readBEList_zero (l : Bytes) (off : Nat) : readBEList l off 0 = 0 := rfl

theorem readBEList_succ (l : Bytes) (off n : Nat) :
    readBEList l off (n + 1) = readBEList l off n * 2 ^ 8 + l.getD (off + n) 0 := by
  simp [readBEList, List.range_succ, List.foldl_append]

theorem readBEList_cons_shift (x : Nat) (l : Bytes) (off num : Nat) :
    readBEList (x :: l) (off + 1) num = readBEList l off num := by
  induction num with
  | zero => rfl
  | succ n ih =>
    rw [readBEList_succ, readBEList_succ, ih,
      show off + 1 + n = (off + n) + 1 from by omega]
    simp

theorem readBEList_append_shift (a : Bytes) :
    ∀ (l : Bytes) (off num : Nat), readBEList (a ++ l) (a.length + off) num =
      readBEList l off num := by
  induction a with
  | nil => intro l off num; simp
  | cons x xs ih =>
    intro l off num
    rw [List.cons_append, List.length_cons,
      show xs.length + 1 + off = (xs.length + off) + 1 from by omega,
      readBEList_cons_shift, ih]

theorem readBEList_append_left (a l : Bytes) :
    ∀ (off num : Nat), off + num ≤ a.length →
      readBEList (a ++ l) off num = readBEList a off num := by
  intro off num
  induction num with
  | zero => intro _; rfl
  | succ n ih =>
    intro h
    rw [readBEList_succ, readBEList_succ, ih (by omega),
      List.getD_append _ _ _ _ (by omega)]

theorem readBEList_beList4 (v : Nat) (hv : v < 2 ^ 32) :
    readBEList (beList 4 v) 0 4 = v := by
  have h0 : (beList 4 v).getD 0 0 = v / 2 ^ 24 % 2 ^ 8 := by
    simp [beList, beByte, List.range_succ]
    omega
  have h1 : (beList 4 v).getD 1 0 = v / 2 ^ 16 % 2 ^ 8 := by
    simp [beList, beByte, List.range_succ]
    omega
  have h2 : (beList 4 v).getD 2 0 = v / 2 ^ 8 % 2 ^ 8 := by
    simp [beList, beByte, List.range_succ]
    omega
  have h3 : (beList 4 v).getD 3 0 = v % 2 ^ 8 := by
    simp [beList, beByte, List.range_succ]
    omega
  rw [show (4 : Nat) = 3 + 1 from rfl, readBEList_succ,
    show (3 : Nat) = 2 + 1 from rfl, readBEList_succ,
    show (2 : Nat) = 1 + 1 from rfl, readBEList_succ,
    show (1 : Nat) = 0 + 1 from rfl, readBEList_succ, readBEList_zero]
  simp only [Nat.zero_add, h0, h1, h2, h3]
  omega

theorem readBE_keylen (v : Nat) (rest : Bytes) (hv : v < 2 ^ 32) :
    readBEList (beList 4 v ++ rest) 0 4 = v := by
  rw [readBEList_append_left _ _ 0 4 (by simp [beList]), readBEList_beList4 v hv]

theorem readBE_vallen (a : Nat) (v : Nat) (rest : Bytes) (hv : v < 2 ^ 32) :
    readBEList (beList 4 a ++ (beList 4 v ++ rest)) 4 4 = v := by
  have hlen : (beList 4 a).length = 4 := by simp [beList]
  calc readBEList (beList 4 a ++ (beList 4 v ++ rest)) 4 4
      = readBEList (beList 4 a ++ (beList 4 v ++ rest)) ((beList 4 a).length + 0) 4 := by
        rw [hlen]
    _ = readBEList (beList 4 v ++ rest) 0 4 := readBEList_append_shift _ _ 0 4
    _ = v := readBE_keylen v rest hv

/-- Length of an encoded row: 4 + 4 header bytes plus key and value. -/
theorem marshalRow_length (r : Row) :
    (marshalRow r).length = 8 + r.PrimaryKey.length + r.Data.length := by
  simp [marshalRow, beList]
  omega

/-- When the scan offset has reached the end of the log, the loop stops and
reports the saved match, or not-found. -/
theorem tableGetLoop_end (data k : Bytes) (fuel off : Nat) (buf : Bytes)
    (acc : Option Bytes) (h : data.length ≤ off) :
    tableGetLoop data k (fuel + 1) off buf acc =
      (match acc with
       | some v => Except.ok v
       | none => Except.error TErr.notFound) := by
  simp only [tableGetLoop, logReadWindow, if_pos h]

/-- The end-of-log stop specialised to a present saved match. -/
theorem tableGetLoop_end_some (data k : Bytes) (fuel off : Nat) (buf v : Bytes)
    (h : data.length ≤ off) :
    tableGetLoop data k (fuel + 1) off buf (some v) = Except.ok v := by
  rw [tableGetLoop_end data k fuel off buf (some v) h]

/-- One scan iteration over a row whose encoded size fits the 1024-byte
buffer: the loop advances by the encoded size, keeps a 1024-byte buffer, and
updates the saved match exactly when the row's key is the searched key. -/
theorem tableGetLoop_step (r : Row) (rest pre buf k : Bytes) (fuel : Nat)
    (acc : Option Bytes)
    (hbuf : buf.length = 1024)
    (hk1 : 0 < r.PrimaryKey.length) (hk2 : r.PrimaryKey.length < 2 ^ 32)
    (hd1 : 0 < r.Data.length) (hd2 : r.Data.length < 2 ^ 32)
    (hsize : 8 + r.PrimaryKey.length + r.Data.length ≤ 1024) :
    ∃ buf1 : Bytes, buf1.length = 1024 ∧
      tableGetLoop (pre ++ (marshalRow r ++ rest)) k (fuel + 1) pre.length buf acc =
        tableGetLoop (pre ++ (marshalRow r ++ rest)) k fuel
          (pre.length + (8 + r.PrimaryKey.length + r.Data.length)) buf1
          (if r.PrimaryKey = k then some r.Data else acc) := by
  have hmlen : (marshalRow r).length = 8 + r.PrimaryKey.length + r.Data.length :=
    marshalRow_length r
  have hdlen : (pre ++ (marshalRow r ++ rest)).length
      = pre.length + ((8 + r.PrimaryKey.length + r.Data.length) + rest.length) := by
    simp [hmlen]
  have hwin : logReadWindow (pre ++ (marshalRow r ++ rest)) buf.length pre.length
      = some ((marshalRow r ++ rest).take
          (min 1024 (8 + r.PrimaryKey.length + r.Data.length + rest.length))) := by
    rw [logReadWindow, if_neg (by omega), List.drop_left, hbuf, hdlen,
      Nat.add_sub_cancel_left]
  obtain ⟨n, hn⟩ : ∃ n, min 1024 (8 + r.PrimaryKey.length + r.Data.length + rest.length) = n :=
    ⟨_, rfl⟩
  rw [hn] at hwin
  have hnrow : 8 + r.PrimaryKey.length + r.Data.length ≤ n := by omega
  have hn1024 : n ≤ 1024 := by omega
  have hn8 : ¬ (n < 8) := by omega
  have hwlen : ((marshalRow r ++ rest).take n).length = n := by
    rw [List.length_take, List.length_append, hmlen]
    omega
  have hweq : (marshalRow r ++ rest).take n
      = marshalRow r ++ rest.take (n - (8 + r.PrimaryKey.length + r.Data.length)) := by
    rw [List.take_append_eq_append_take,
      List.take_of_length_le (by omega : (marshalRow r).length ≤ n), hmlen]
  obtain ⟨tb, htb⟩ :
      ∃ tb, rest.take (n - (8 + r.PrimaryKey.length + r.Data.length)) ++ buf.drop n = tb :=
    ⟨_, rfl⟩
  have htlen : tb.length = 1024 - (8 + r.PrimaryKey.length + r.Data.length) := by
    rw [← htb, List.length_append, List.length_take, List.length_drop, hbuf]
    omega
  have hbuf1eq : (marshalRow r ++ rest).take n ++ buf.drop n = marshalRow r ++ tb := by
    rw [hweq, List.append_assoc, htb]
  have hbuf1len : (marshalRow r ++ tb).length = 1024 := by
    rw [List.length_append, hmlen, htlen]
    omega
  have hmar : marshalRow r ++ tb
      = beList 4 r.PrimaryKey.length
          ++ (beList 4 r.Data.length ++ (r.PrimaryKey ++ (r.Data ++ tb))) := by
    simp [marshalRow]
  have hkeyread : readBEList (marshalRow r ++ tb) 0 4 = r.PrimaryKey.length := by
    rw [hmar]
    exact readBE_keylen _ _ hk2
  have hvalread : readBEList (marshalRow r ++ tb) 4 4 = r.Data.length := by
    rw [hmar]
    exact readBE_vallen _ _ _ hd2
  have hfound : ((marshalRow r ++ tb).drop 8).take r.PrimaryKey.length = r.PrimaryKey := by
    have h8 : marshalRow r ++ tb
        = (beList 4 r.PrimaryKey.length ++ beList 4 r.Data.length)
            ++ (r.PrimaryKey ++ (r.Data ++ tb)) := by
      simp [marshalRow]
    have hl8 : ((beList 4 r.PrimaryKey.length ++ beList 4 r.Data.length) : Bytes).length = 8 := by
      simp [beList]
    rw [h8, show (8 : Nat)
        = ((beList 4 r.PrimaryKey.length ++ beList 4 r.Data.length) : Bytes).length
        from hl8.symm,
      List.drop_left, List.take_left]
  have hvalue : ((marshalRow r ++ tb).drop (8 + r.PrimaryKey.length)).take r.Data.length
      = r.Data := by
    have h8k : marshalRow r ++ tb
        = (beList 4 r.PrimaryKey.length ++ (beList 4 r.Data.length ++ r.PrimaryKey))
            ++ (r.Data ++ tb) := by
      simp [marshalRow]
    have hl8k : ((beList 4 r.PrimaryKey.length
        ++ (beList 4 r.Data.length ++ r.PrimaryKey)) : Bytes).length
        = 8 + r.PrimaryKey.length := by
      simp [beList]
      omega
    rw [h8k, show 8 + r.PrimaryKey.length
        = ((beList 4 r.PrimaryKey.length
            ++ (beList 4 r.Data.length ++ r.PrimaryKey)) : Bytes).length
        from hl8k.symm,
      List.drop_left, List.take_left]
  refine ⟨marshalRow r ++ tb, hbuf1len, ?_⟩
  by_cases hkl : r.PrimaryKey.length = k.length
  · by_cases hbytes : r.PrimaryKey = k
    · have hne1 : ¬ (r.PrimaryKey.length ≠ k.length) := by simp [hkl]
      have hne2 : ¬ (r.PrimaryKey ≠ k) := by simp [hbytes]
      have hrow : ¬ (8 + r.PrimaryKey.length + r.Data.length > 1024) := by omega
      rw [if_pos hbytes]
      simp only [tableGetLoop, hwin, hwlen, hbuf1eq, hkeyread, hvalread,
        if_neg hn8, if_neg hne1, if_neg hrow, hfound, if_neg hne2, hvalue]
    · have hne1 : ¬ (r.PrimaryKey.length ≠ k.length) := by simp [hkl]
      have hrow : ¬ (8 + r.PrimaryKey.length + r.Data.length > 1024) := by omega
      rw [if_neg hbytes]
      simp only [tableGetLoop, hwin, hwlen, hbuf1eq, hkeyread, hvalread,
        if_neg hn8, if_neg hne1, if_neg hrow, hfound, if_pos hbytes]
  · have hne0 : r.PrimaryKey ≠ k := fun h => hkl (by rw [h])
    rw [if_neg hne0]
    simp only [tableGetLoop, hwin, hwlen, hbuf1eq, hkeyread, hvalread,
      if_neg hn8, if_pos hkl]

theorem lastMatchData_nil (k : Bytes) : lastMatchData [] k = none := rfl

theorem lastMatchData_cons_pos (r : Row) (rs : List Row) (k : Bytes)
    (h : r.PrimaryKey = k) :
    lastMatchData (r :: rs) k = (lastMatchData rs k).or (some r.Data) := by
  have hb : (r.PrimaryKey == k) = true := by simp [h]
  simp only [lastMatchData, List.filter_cons, hb, if_true]
  cases hf : rs.filter (fun x => x.PrimaryKey == k) with
  | nil => simp [hf]
  | cons x xs =>
    obtain ⟨y, hy⟩ : ∃ y, (x :: xs).getLast? = some y := by
      cases h2 : (x :: xs).getLast? with
      | none => simp [List.getLast?_eq_none_iff] at h2
      | some y => exact ⟨y, rfl⟩
    simp [hf, List.getLast?_cons_cons, hy]

theorem lastMatchData_cons_neg (r : Row) (rs : List Row) (k : Bytes)
    (h : ¬ r.PrimaryKey = k) :
    lastMatchData (r :: rs) k = lastMatchData rs k := by
  have hb : (r.PrimaryKey == k) = false := by simpa using h
  simp [lastMatchData, List.filter_cons, hb]

/-- The scan loop returns the most recent matching row's value (or the saved
match, or not-found) whenever every row's encoded size is at most 1024. -/
theorem tableGetLoop_spec (k : Bytes) :
    ∀ (rows : List Row) (pre buf : Bytes) (acc : Option Bytes),
      buf.length = 1024 →
      (∀ r ∈ rows, 0 < r.PrimaryKey.length ∧ r.PrimaryKey.length < 2 ^ 32 ∧
        0 < r.Data.length ∧ r.Data.length < 2 ^ 32 ∧
        8 + r.PrimaryKey.length + r.Data.length ≤ 1024) →
      tableGetLoop (pre ++ (rows.map marshalRow).flatten) k (rows.length + 1)
          pre.length buf acc =
        (match (lastMatchData rows k).or acc with
         | some v => Except.ok v
         | none => Except.error TErr.notFound) := by
  intro rows
  induction rows with
  | nil =>
    intro pre buf acc hbuf hv
    rw [show ([] : List Row).length + 1 = 0 + 1 from rfl,
      tableGetLoop_end _ _ 0 _ _ _ (by simp)]
    simp [lastMatchData_nil]
  | cons r rs ih =>
    intro pre buf acc hbuf hv
    obtain ⟨hk1, hk2, hd1, hd2, hsize⟩ := hv r (List.mem_cons_self r rs)
    have hvrs : ∀ x ∈ rs, 0 < x.PrimaryKey.length ∧ x.PrimaryKey.length < 2 ^ 32 ∧
        0 < x.Data.length ∧ x.Data.length < 2 ^ 32 ∧
        8 + x.PrimaryKey.length + x.Data.length ≤ 1024 :=
      fun x hx => hv x (List.mem_cons_of_mem r hx)
    obtain ⟨buf1, hbuf1, heq⟩ :=
      tableGetLoop_step r ((rs.map marshalRow).flatten) pre buf k (rs.length + 1) acc
        hbuf hk1 hk2 hd1 hd2 hsize
    rw [show ((r :: rs).map marshalRow).flatten
        = marshalRow r ++ (rs.map marshalRow).flatten from by simp,
      show (r :: rs).length + 1 = (rs.length + 1) + 1 from by simp,
      heq,
      show pre ++ (marshalRow r ++ (rs.map marshalRow).flatten)
        = (pre ++ marshalRow r) ++ (rs.map marshalRow).flatten from by simp,
      show pre.length + (8 + r.PrimaryKey.length + r.Data.length)
        = (pre ++ marshalRow r).length from by
          rw [List.length_append, marshalRow_length],
      ih (pre ++ marshalRow r) buf1 _ hbuf1 hvrs]
    by_cases hb : r.PrimaryKey = k
    · rw [if_pos hb, lastMatchData_cons_pos r rs k hb, Option.or_assoc]
      rfl
    · rw [if_neg hb, lastMatchData_cons_neg r rs k hb]

/-- One scan iteration over a row larger than 1024 bytes, with every
intermediate quantity supplied as an equation: the window read, the tail
extension read, the grown buffer, and the value sliced out of it. -/
theorem tableGetLoop_bigstep (data k buf w ext buf2 v : Bytes)
    (fuel off m n ks vs rs off2 : Nat) (acc : Option Bytes)
    (hbl : buf.length = m)
    (hwin : logReadWindow data m off = some w)
    (hwl : w.length = n)
    (hn8 : ¬ (n < 8))
    (hks : readBEList (w ++ buf.drop n) 0 4 = ks)
    (hvs : readBEList (w ++ buf.drop n) 4 4 = vs)
    (hkl : ks = k.length)
    (hrs : 8 + ks + vs = rs)
    (hbig : rs > 1024)
    (hext : logReadWindow data (rs - 1024) (off + 1024) = some ext)
    (hbuf2 : (w ++ buf.drop n) ++ (ext ++ List.replicate (rs - 1024 - ext.length) 0) = buf2)
    (hfk : (buf2.drop 8).take ks = k)
    (hval : (buf2.drop (8 + ks)).take vs = v)
    (hoff2 : off + rs = off2) :
    tableGetLoop data k (fuel + 1) off buf acc =
      tableGetLoop data k fuel off2 buf2 (some v) := by
  simp only [tableGetLoop, hbl, hwin, hwl, if_neg hn8, hks, hvs,
    if_neg (show ¬(ks ≠ k.length) from by simp [hkl]), hrs, if_pos hbig, hext, hbuf2, hfk,
    if_neg (show ¬(k ≠ k) from by simp), hval, hoff2]

/-- Claim C7 (amended): a sequential scan of the whole log compares the
stored key sizes and key bytes against the searched key and returns the Data
of the most recent matching row, or ErrNotFound — provided every record's
encoded size (8 + keylen + vallen) is at most the 1024-byte scan buffer.
Without that proviso the claim fails, see the counterexample. -/
theorem C7_scan_small_rows (rows : List Row) (k : Bytes)
    (hk : validateTableKey k = true)
    (hrows : ∀ r ∈ rows, 0 < r.PrimaryKey.length ∧ r.PrimaryKey.length < 2 ^ 32 ∧
      0 < r.Data.length ∧ r.Data.length < 2 ^ 32 ∧
      8 + r.PrimaryKey.length + r.Data.length ≤ 1024) :
    tableGet (rows.length + 1) ((rows.map marshalRow).flatten) k =
      (match lastMatchData rows k with
       | some v => Except.ok v
       | none => Except.error TErr.notFound) := by
  rw [tableGet, if_neg (by simp [hk])]
  have h := tableGetLoop_spec k rows [] (List.replicate 1024 0) none (by simp) hrows
  simpa using h

/-- Witness for the amended claim C7 at two concrete small rows with the
same key: the scan returns the second (most recent) row's value. -/
theorem C7_scan_small_rows_witness :
    validateTableKey [107] = true ∧
    tableGet (rowsC7w.length + 1) ((rowsC7w.map marshalRow).flatten) [107] =
      (match lastMatchData rowsC7w [107] with
       | some v => Except.ok v
       | none => Except.error TErr.notFound) :=
  ⟨by decide, C7_scan_small_rows rowsC7w [107] (by decide) (by decide)⟩

set_option maxHeartbeats 4000000 in
/-- Claim C7 counterexample: two rows under the same key, the first 1032
encoded bytes, the second 1040. Both exceed the 1024-byte buffer, so each
triggers a tail extension that grows the shared buffer; on the second row
the 1032-byte grown buffer reads a larger window, but the extension read
still starts at offset off + 1024, re-reading 8 bytes the window already
holds and never reaching the row's last 8 bytes. The scan returns 1031
bytes equal to 98, not the stored value (1023 bytes equal to 98 followed by
8 bytes equal to 99) that the most recent row holds and that the
specification promises. -/
theorem C7_large_rows_mangle_last_value :
    dataC7 = (([rowC7a, rowC7b].map marshalRow).flatten) ∧
    lastMatchData [rowC7a, rowC7b] [107] = some rowC7b.Data ∧
    tableGet 3 dataC7 [107] = Except.ok (List.replicate 1031 98) ∧
    List.replicate 1031 98 ≠ rowC7b.Data := by
  refine ⟨by simp [dataC7], by rfl, ?_, ?_⟩
  · have hm1 : marshalRow rowC7a
        = beList 4 1 ++ (beList 4 1023 ++ ([107] ++ List.replicate 1023 97)) := by
      simp [marshalRow, rowC7a]
    have hm2 : marshalRow rowC7b
        = beList 4 1 ++ (beList 4 1031
            ++ ([107] ++ (List.replicate 1023 98 ++ List.replicate 8 99))) := by
      simp [marshalRow, rowC7b]
    have hlm1 : (marshalRow rowC7a).length = 1032 := by
      rw [marshalRow_length]
      simp [rowC7a]
    have hlm2 : (marshalRow rowC7b).length = 1040 := by
      rw [marshalRow_length]
      simp [rowC7b]
    have hdlen : dataC7.length = 2072 := by
      simp [dataC7, hlm1, hlm2]
    have hrep97 : List.replicate 1023 (97 : Nat)
        = List.replicate 1015 97 ++ List.replicate 8 97 := by
      rw [show (1023 : Nat) = 1015 + 8 from rfl, List.replicate_add]
    have hrep98 : List.replicate 1023 (98 : Nat)
        = List.replicate 1015 98 ++ List.replicate 8 98 := by
      rw [show (1023 : Nat) = 1015 + 8 from rfl, List.replicate_add]
    have hrep98b : List.replicate 1031 (98 : Nat)
        = List.replicate 1023 98 ++ List.replicate 8 98 := by
      rw [show (1031 : Nat) = 1023 + 8 from rfl, List.replicate_add]
    set w1 : Bytes := beList 4 1 ++ (beList 4 1023 ++ ([107] ++ List.replicate 1015 97))
      with hw1
    set w2 : Bytes := beList 4 1 ++ (beList 4 1031 ++ ([107] ++ List.replicate 1023 98))
      with hw2
    have hwin1 : logReadWindow dataC7 1024 0 = some w1 := by
      rw [logReadWindow, if_neg (by omega), List.drop_zero, hdlen]
      norm_num
      rw [show dataC7 = ((beList 4 1 ++ (beList 4 1023 ++ ([107] : Bytes)))
            ++ List.replicate 1023 97) ++ marshalRow rowC7b from by simp [dataC7, hm1],
        List.take_append_of_le_length (by simp [beList]),
        List.take_append_eq_append_take,
        List.take_of_length_le (by simp [beList]),
        show (1024 : Nat) - ((beList 4 1 ++ (beList 4 1023 ++ ([107] : Bytes)))).length = 1015
          from by simp [beList],
        List.take_replicate, hw1]
      simp
    have hwl1 : w1.length = 1024 := by
      rw [hw1]
      simp [beList]
    have hdropbuf : (List.replicate 1024 (0 : Nat)).drop 1024 = [] := by simp
    have hks1 : readBEList w1 0 4 = 1 := by
      rw [hw1]
      exact readBE_keylen 1 _ (by norm_num)
    have hvs1 : readBEList w1 4 4 = 1023 := by
      rw [hw1]
      exact readBE_vallen 1 1023 _ (by norm_num)
    have hext1 : logReadWindow dataC7 8 1024 = some (List.replicate 8 97) := by
      rw [logReadWindow, if_neg (by omega), hdlen]
      norm_num
      rw [show dataC7 = ((beList 4 1 ++ (beList 4 1023 ++ ([107] : Bytes)))
            ++ List.replicate 1015 97) ++ (List.replicate 8 97 ++ marshalRow rowC7b)
          from by simp [dataC7, hm1, hrep97],
        show (1024 : Nat) = (((beList 4 1 ++ (beList 4 1023 ++ ([107] : Bytes)))
            ++ List.replicate 1015 97) : Bytes).length from by simp [beList],
        List.drop_left,
        List.take_append_of_le_length (by simp),
        List.take_of_length_le (by simp)]
    have hfk1 : ((w1 ++ List.replicate 8 97).drop 8).take 1 = [107] := by
      rw [show w1 ++ List.replicate 8 97
          = (beList 4 1 ++ beList 4 1023)
              ++ ([107] ++ (List.replicate 1015 97 ++ List.replicate 8 97)) from by
            rw [hw1]; simp,
        show (8 : Nat) = ((beList 4 1 ++ beList 4 1023 : Bytes)).length from by simp [beList],
        List.drop_left]
      simp
    have hbl2 : (w1 ++ List.replicate 8 97).length = 1032 := by
      rw [hw1]
      simp [beList]
    have hdrop1032 : dataC7.drop 1032 = marshalRow rowC7b := by
      rw [show dataC7 = marshalRow rowC7a ++ marshalRow rowC7b from rfl,
        show (1032 : Nat) = (marshalRow rowC7a).length from hlm1.symm, List.drop_left]
    have hwin2 : logReadWindow dataC7 1032 1032 = some w2 := by
      rw [logReadWindow, if_neg (by omega), hdlen]
      norm_num
      rw [hdrop1032,
        show marshalRow rowC7b = ((beList 4 1 ++ (beList 4 1031 ++ ([107] : Bytes)))
            ++ List.replicate 1023 98) ++ List.replicate 8 99 from by simp [hm2],
        List.take_append_of_le_length (by simp [beList]),
        List.take_of_length_le (by simp [beList]), hw2]
      simp
    have hwl2 : w2.length = 1032 := by
      rw [hw2]
      simp [beList]
    have hdropbuf2 : (w1 ++ List.replicate 8 97).drop 1032 = [] := by
      rw [List.drop_eq_nil_iff, hbl2]
    have hks2 : readBEList w2 0 4 = 1 := by
      rw [hw2]
      exact readBE_keylen 1 _ (by norm_num)
    have hvs2 : readBEList w2 4 4 = 1031 := by
      rw [hw2]
      exact readBE_vallen 1 1031 _ (by norm_num)
    have hext2 : logReadWindow dataC7 16 2056
        = some (List.replicate 8 98 ++ List.replicate 8 99) := by
      rw [logReadWindow, if_neg (by omega), hdlen]
      norm_num
      rw [show dataC7 = (marshalRow rowC7a ++ ((beList 4 1 ++ (beList 4 1031 ++ ([107] : Bytes)))
            ++ List.replicate 1015 98)) ++ (List.replicate 8 98 ++ List.replicate 8 99)
          from by simp [dataC7, hm2, hrep98],
        show (2056 : Nat) = ((marshalRow rowC7a ++ ((beList 4 1 ++ (beList 4 1031
            ++ ([107] : Bytes))) ++ List.replicate 1015 98)) : Bytes).length from by
          simp [beList, hlm1],
        List.drop_left,
        List.take_of_length_le (by simp)]
    have hfk2 : ((w2 ++ (List.replicate 8 98 ++ List.replicate 8 99)).drop 8).take 1
        = [107] := by
      rw [show w2 ++ (List.replicate 8 98 ++ List.replicate 8 99)
          = (beList 4 1 ++ beList 4 1031)
              ++ ([107] ++ (List.replicate 1023 98
                ++ (List.replicate 8 98 ++ List.replicate 8 99))) from by
            rw [hw2]; simp,
        show (8 : Nat) = ((beList 4 1 ++ beList 4 1031 : Bytes)).length from by simp [beList],
        List.drop_left]
      simp
    have hval2 : ((w2 ++ (List.replicate 8 98 ++ List.replicate 8 99)).drop 9).take 1031
        = List.replicate 1031 98 := by
      rw [show w2 ++ (List.replicate 8 98 ++ List.replicate 8 99)
          = (beList 4 1 ++ (beList 4 1031 ++ ([107] : Bytes)))
              ++ (List.replicate 1031 98 ++ List.replicate 8 99) from by
            rw [hw2, hrep98b]; simp,
        show (9 : Nat) = ((beList 4 1 ++ (beList 4 1031 ++ ([107] : Bytes)) : Bytes)).length
          from by simp [beList],
        List.drop_left,
        List.take_append_of_le_length (by simp),
        List.take_of_length_le (by simp)]
    have hbl3 : (w2 ++ (List.replicate 8 98 ++ List.replicate 8 99)).length = 1048 := by
      rw [hw2]
      simp [beList]
    have hwin3 : logReadWindow dataC7 1048 2072 = none := by
      rw [logReadWindow, if_pos (by omega)]
    have hval1 : ((w1 ++ List.replicate 8 97).drop 9).take 1023
        = List.replicate 1023 97 := by
      rw [show w1 ++ List.replicate 8 97
          = (beList 4 1 ++ (beList 4 1023 ++ ([107] : Bytes)))
              ++ (List.replicate 1015 97 ++ List.replicate 8 97) from by
            rw [hw1]; simp,
        show (9 : Nat) = ((beList 4 1 ++ (beList 4 1023 ++ ([107] : Bytes)) : Bytes)).length
          from by simp [beList],
        List.drop_left,
        List.take_of_length_le (by simp), ← hrep97]
    rw [tableGet, if_neg (by decide)]
    rw [tableGetLoop_bigstep dataC7 [107] (List.replicate 1024 0) w1 (List.replicate 8 97)
      (w1 ++ List.replicate 8 97) (List.replicate 1023 97) 2 0 1024 1024 1 1023 1032 1032 none
      (by simp) hwin1 hwl1 (by norm_num)
      (by rw [hdropbuf, List.append_nil]; exact hks1)
      (by rw [hdropbuf, List.append_nil]; exact hvs1)
      (by simp) (by norm_num) (by norm_num) (by norm_num [hext1])
      (by rw [hdropbuf, List.append_nil]; simp) hfk1 (by norm_num [hval1]) (by norm_num)]
    rw [tableGetLoop_bigstep dataC7 [107] (w1 ++ List.replicate 8 97) w2
      (List.replicate 8 98 ++ List.replicate 8 99)
      (w2 ++ (List.replicate 8 98 ++ List.replicate 8 99)) (List.replicate 1031 98)
      1 1032 1032 1032 1 1031 1040 2072 (some (List.replicate 1023 97))
      hbl2 hwin2 hwl2 (by norm_num)
      (by rw [hdropbuf2, List.append_nil]; exact hks2)
      (by rw [hdropbuf2, List.append_nil]; exact hvs2)
      (by simp) (by norm_num) (by norm_num) (by norm_num [hext2])
      (by rw [hdropbuf2, List.append_nil]; simp) hfk2 (by norm_num [hval2]) (by norm_num)]
    rw [tableGetLoop_end_some dataC7 [107] 0 2072
      (w2 ++ (List.replicate 8 98 ++ List.replicate 8 99)) (List.replicate 1031 98)
      (le_of_eq hdlen)]
  · intro h
    have h1 : (List.replicate 1031 (98 : Nat)).getD 1030 0 = 98 := by
      simp [List.getD, List.getElem?_replicate]
    have h2 : (rowC7b.Data).getD 1030 0 = 99 := by
      show ((List.replicate 1023 (98 : Nat) ++ List.replicate 8 99)).getD 1030 0 = 99
      rw [List.getD_append_right _ _ _ _ (by simp)]
      simp [List.getD, List.getElem?_replicate]
    rw [h] at h1
    omega

/-- Claim C8 (amended): decoding a page's cells fails exactly when the
declared cell count or some declared keylen/vallen would run past the end of
the page — the bounds scan `cellsScanOK` — and a page passing those bounds
checks decodes successfully; the source performs no check that an internal
page's last cell has keylen 0. -/
theorem C8_cells_ok_iff_bounds (p : Page) :
    (Page.cells p).isOk = cellsScanOK p p.isInternalFlag p.numCells pageHeaderSize :=
  cellsFrom_isOk p p.isInternalFlag p.numCells pageHeaderSize

/-- Claim C1: the claim states that after `insert(k, v)` on the B+ tree
succeeds, a subsequent `find(k)` returns `v`, including across splits. This
check evaluates the code at the failing input of the repository's own
`TestBTree`: on a fresh tree, `Insert("test", "value")` succeeds, yet
`Find("test")` returns `ErrNotFound` — `loadNode` leaves every loaded node
with id 0, so the insert stores the updated root at byte offset 0 (the tree
file header) instead of at the root page at 4096, which `Find` then reads
still zeroed. -/
theorem C1_insert_then_find_not_found :
    (BTree.insertTop 9 newBTreeStore newBTreeWaterMark keyTest valValue).isOk = true ∧
    (BTree.insertTop 9 newBTreeStore newBTreeWaterMark keyTest valValue).map
        (fun r => BTree.findTop 9 r.1 keyTest) = .ok (.error .notFound) :=
  ⟨by decide, by decide⟩

/-- Claim C5: the claim states that decoding the page produced by encoding a
valid node yields the node back unchanged, internal flag included. Evaluated
at the valid internal node `nodeC5`: the round-trip returns the node with its
internal flag cleared — `node.Decode` never assigns `isInternal`. -/
theorem C5_roundtrip_drops_internal_flag :
    Node.decode (Node.encode nodeC5) = .ok { nodeC5 with isInternal := false } ∧
    Node.decode (Node.encode nodeC5) ≠ .ok nodeC5 :=
  ⟨by decide, by decide⟩

/-- Claim C4: the claim (and the repository's own `TestNode_split`
expectations) say the cell inserted into the parent after a non-root leaf
split pairs the first key of the right half with a child pointer to the LEFT
node, which keeps `N`'s identifier (here 2, page 8192). In the source,
`rightPtr` pairs that separator with the freshly allocated RIGHT node (page
12288) instead, and the split then panics when inserting it into the decoded
parent, whose internal flag `Decode` dropped. -/
theorem C4_split_separator_points_right_and_panics :
    errOf (BTree.split 9 storeC4 2 nodeC4 insC4) = some .panicked ∧
    (BTree.splitNode 2 nodeC4 insC4).1.id = nodeC4.id ∧
    BTree.splitRightPtrCell (BTree.splitNode 2 nodeC4 insC4).2.1 =
      { key := [56], value := [], ptr := 12288 } ∧
    (12288 : Int) ≠ nodeC4.id * 4096 :=
  ⟨by decide, by decide, by decide, by decide⟩

/-- Claim C8 (counterexample part): the claim says decoding fails whenever an
internal page's last cell has a non-zero keylen. The internal page `pageC8`
declares a single cell with keylen 1 and still decodes successfully — the
source checks no sentinel condition. -/
theorem C8_internal_last_cell_key_not_checked :
    Page.cells pageC8 = .ok [{ key := [107], value := [], ptr := 4096 }] ∧
    pageC8.isInternalFlag = true :=
  ⟨by decide, by decide⟩

/-- Claim C3 (counterexample part): the claim says the node reusing the root
identifier after a root split is an INTERNAL node. At the concrete root
split of `rootC3` with `insC3`, the new root keeps the identifier but its
internal flag is false — `splitRoot` never sets `isInternal`. -/
theorem C3_new_root_not_internal :
    (BTree.splitRoot 4096 rootC3 insC3).2.2.1.id = rootC3.id ∧
    (BTree.splitRoot 4096 rootC3 insC3).2.2.1.isInternal = false :=
  ⟨by decide, by decide⟩

/-- Claim C9: on a log with at least one segment, a fully successful append
returns the log's size before the write as the logical offset at which the
content begins and advances the size by exactly the number of bytes written;
a failed underlying write leaves the size unchanged and the append reports
failure. -/
theorem C9_append_offset_and_size (l : HeapLog) (content : Bytes) (n : Nat)
    (h : l.segments ≠ []) :
    (logAppend l content { accepted := content.length, failed := false }).1 =
      (l.size, false) ∧
    (logAppend l content { accepted := content.length, failed := false }).2.size =
      l.size + content.length ∧
    (logAppend l content { accepted := n, failed := true }).1.2 = true ∧
    (logAppend l content { accepted := n, failed := true }).2.size = l.size := by
  rcases hl : l.segments with _ | ⟨s, rest⟩
  · exact absurd hl h
  · refine ⟨?_, ?_, ?_, ?_⟩ <;> simp [logAppend, logWrite, hl]

/-- Witness for C9 at a concrete one-segment log. -/
theorem C9_append_offset_and_size_witness :
    logC9.segments ≠ [] ∧
    ((logAppend logC9 [7, 8] { accepted := ([7, 8] : Bytes).length, failed := false }).1 =
        (logC9.size, false) ∧
      (logAppend logC9 [7, 8] { accepted := ([7, 8] : Bytes).length, failed := false }).2.size =
        logC9.size + ([7, 8] : Bytes).length ∧
      (logAppend logC9 [7, 8] { accepted := 1, failed := true }).1.2 = true ∧
      (logAppend logC9 [7, 8] { accepted := 1, failed := true }).2.size = logC9.size) :=
  ⟨by decide, C9_append_offset_and_size logC9 [7, 8] 1 (by decide)⟩

end Zomdb
